import Mathlib

/-!
# Verification of the CA3 High-Performance-Python kernels

Shallow embedding of the two numeric kernels of the repository:

* the Julia-set escape-time fractal kernel and its grid builder
  (`Part 1_Benchmarking and Profiling/benchmarking_and_profiling.py`),
  embedded over exact rationals `ℚ` (Python floats become `ℚ`; the
  magnitude test `abs(z) < 2` becomes the equivalent `re² + im² < 4`);
* the particle integrator (`Part 4_Matrix and Vector Computations/ParticleSim.py`),
  embedded over the reals `ℝ` (the source computes `(x**2+y**2)**0.5`,
  i.e. a square root, so the exact embedding lives in `ℝ`).

Complex numbers are embedded as pairs `ℚ × ℚ` of (real, imaginary) parts.
-/

/-! ## Fractal kernel: data and arithmetic -/

/-- Embedded complex number: (real part, imaginary part). -/
abbrev Cplx : Type := ℚ × ℚ

/-- Complex addition, componentwise. -/
def cadd (a b : Cplx) : Cplx := (a.1 + b.1, a.2 + b.2)

/-- Complex multiplication: `(a+bi)(c+di) = (ac-bd) + (ad+bc)i`. -/
def cmul (a b : Cplx) : Cplx := (a.1 * b.1 - a.2 * b.2, a.1 * b.2 + a.2 * b.1)

/-- Squared Euclidean modulus `re² + im²`.  The source tests `abs(z) < 2`;
over exact arithmetic this is equivalent to `normSq z < 4` (see
`abs_lt_two_iff_normSq_lt_four`). -/
def normSq (z : Cplx) : ℚ := z.1 * z.1 + z.2 * z.2

/-- Module-level constant `x1 = -1.8` of the source. -/
def X1 : ℚ := -9/5

/-- Module-level constant `x2 = 1.8` of the source. -/
def X2 : ℚ := 9/5

/-- Module-level constant `y1 = -1.8` of the source. -/
def Y1 : ℚ := -9/5

/-- Module-level constant `y2 = 1.8` of the source. -/
def Y2 : ℚ := 9/5

/-- Module-level constant `c_real = -0.62772` of the source. -/
def c_real : ℚ := -62772/100000

/-- Module-level constant `c_imag = -0.42193` of the source. -/
def c_imag : ℚ := -42193/100000

/-! ## Grid builder

`calc_pure_python` builds the x list with
`xcoord = x1; while xcoord < x2: x.append(xcoord); xcoord += x_step`
and the y list with
`ycoord = y2; while ycoord > y1: y.append(ycoord); ycoord += y_step`.
The loops terminate only when the step has the right sign (positive for x,
negative for y), which holds whenever `desired_width > 0` and the bounds are
ordered; the embedding takes that sign condition as an explicit argument so
that the recursion is well founded. -/

/-- The ascending accumulation loop `while xcoord < hi: append; xcoord += step`.
Direct transcription of the x loop of `calc_pure_python`. -/
def buildAsc (hi step : ℚ) (hstep : 0 < step) (xc : ℚ) : List ℚ :=
  if xc < hi then xc :: buildAsc hi step hstep (xc + step) else []
termination_by (⌈(hi - xc) / step⌉).toNat
decreasing_by
  have h1 : (0:ℚ) < (hi - xc) / step := div_pos (by linarith) hstep
  have h2 : (hi - (xc + step)) / step = (hi - xc) / step - 1 := by
    rw [show hi - (xc + step) = (hi - xc) - step by ring, sub_div,
      div_self (ne_of_gt hstep)]
  have h3 : ⌈(hi - (xc + step)) / step⌉ = ⌈(hi - xc) / step⌉ - 1 := by
    rw [h2, Int.ceil_sub_one]
  have h4 : (0:ℤ) < ⌈(hi - xc) / step⌉ := Int.ceil_pos.mpr h1
  omega

/-- The descending accumulation loop `while ycoord > lo: append; ycoord += step`.
Direct transcription of the y loop of `calc_pure_python` (its step is negative). -/
def buildDesc (lo step : ℚ) (hstep : step < 0) (yc : ℚ) : List ℚ :=
  if lo < yc then yc :: buildDesc lo step hstep (yc + step) else []
termination_by (⌈(yc - lo) / (-step)⌉).toNat
decreasing_by
  have hpos : (0:ℚ) < -step := by linarith
  have h1 : (0:ℚ) < (yc - lo) / (-step) := div_pos (by linarith) hpos
  have h2 : ((yc + step) - lo) / (-step) = (yc - lo) / (-step) - 1 := by
    rw [show (yc + step) - lo = (yc - lo) - (-step) by ring, sub_div,
      div_self (ne_of_gt hpos)]
  have h3 : ⌈((yc + step) - lo) / (-step)⌉ = ⌈(yc - lo) / (-step)⌉ - 1 := by
    rw [h2, Int.ceil_sub_one]
  have h4 : (0:ℤ) < ⌈(yc - lo) / (-step)⌉ := Int.ceil_pos.mpr h1
  omega

/-- The double loop of `calc_pure_python` that builds `zs`:
`for ycoord in y: for xcoord in x: zs.append(complex(xcoord, ycoord))`. -/
def buildZs (y x : List ℚ) : List Cplx :=
  (y.map (fun yc => x.map (fun xc => ((xc, yc) : Cplx)))).flatten

/-- The double loop of `calc_pure_python` that builds `cs`:
`for ycoord in y: for xcoord in x: cs.append(complex(c_real, c_imag))`. -/
def buildCs (y x : List ℚ) (c : Cplx) : List Cplx :=
  (y.map (fun _ => x.map (fun _ => c))).flatten

/-! ## The escape-time kernel `calculate_z_serial_purepython` -/

/-- The inner `while abs(z) < 2 and n < maxiter: z = z*z + c; n += 1` loop of
`calculate_z_serial_purepython`, returning the final `n`.  The magnitude test
is the strict exact test `normSq z < 4`, equivalent to `|z| < 2`. -/
def juliaLoop (maxiter : ℕ) (c : Cplx) (z : Cplx) (n : ℕ) : ℕ :=
  if normSq z < 4 ∧ n < maxiter then
    juliaLoop maxiter c (cadd (cmul z z) c) (n + 1)
  else n
termination_by maxiter - n
decreasing_by omega

/-- `calculate_z_serial_purepython(maxiter, zs, cs)`: allocate
`output = [0] * len(zs)`, then `for i in range(len(zs)): output[i] = n`
where `n` comes from the escape loop on `zs[i]`, `cs[i]`.
(The source indexes `cs[i]` unchecked; out-of-range reads, which raise in
Python, are given the default `(0, 0)` here — all theorems assume
`cs.length = zs.length`, under which no default is ever used.) -/
def calculate_z_serial_purepython (maxiter : ℕ) (zs cs : List Cplx) : List ℕ :=
  (List.range zs.length).foldl
    (fun out i => out.set i (juliaLoop maxiter (cs.getD i (0, 0)) (zs.getD i (0, 0)) 0))
    (List.replicate zs.length 0)

/-- With the reference bounds, `x_step = (x2 - x1)/desired_width` is
positive for positive width (so the x loop terminates). -/
theorem xstep_pos (w : ℕ) (hw : 0 < w) : 0 < (X2 - X1) / (w:ℚ) := by
  have : (0:ℚ) < (w:ℚ) := by exact_mod_cast hw
  exact div_pos (by norm_num [X1, X2]) this

/-- With the reference bounds, `y_step = (y1 - y2)/desired_width` is
negative for positive width (so the y loop terminates). -/
theorem ystep_neg (w : ℕ) (hw : 0 < w) : (Y1 - Y2) / (w:ℚ) < 0 := by
  have : (0:ℚ) < (w:ℚ) := by exact_mod_cast hw
  exact div_neg_of_neg_of_pos (by norm_num [Y1, Y2]) this

/-- `calc_pure_python(desired_width, max_iterations, return_output)` over ℚ.
Builds the grid from the module constants, runs the serial kernel, executes
`assert sum(output) == 33219980` (modelled as `Except.error ()`, Python's
`AssertionError`), then returns the output list only when `return_output`
is true (Python returns `None` otherwise, modelled as `none`).
The hypothesis `0 < w` makes the two accumulation loops well founded
(`x_step > 0`, `y_step < 0`), exactly the condition under which the Python
loops terminate. -/
def calc_pure_python (w : ℕ) (hw : 0 < w) (maxiter : ℕ) (return_output : Bool) :
    Except Unit (Option (List ℕ)) :=
  let y := buildDesc Y1 ((Y1 - Y2) / w) (ystep_neg w hw) Y2
  let x := buildAsc X2 ((X2 - X1) / w) (xstep_pos w hw) X1
  let zs := buildZs y x
  let cs := buildCs y x (c_real, c_imag)
  let output := calculate_z_serial_purepython maxiter zs cs
  if output.sum = 33219980 then
    if return_output then Except.ok (some output) else Except.ok none
  else Except.error ()

/-! ## Batch fractal strategy (spec §4.2, not present under `src/`) -/

/-- Modelled from the spec: one synchronous batch step over the per-point
state `(z, c, n)`.  The repository's `src/` contains no batch fractal
implementation (only the scalar `calculate_z_serial_purepython`); spec §4.2
requires a batch strategy that keeps whole-array state and "must still stop
updating any individual point once it has escaped or hit the cap".  The
masked update below applies the Julia rule to a point exactly while it is
still active (`normSq z < 4` and `n < maxiter`) and freezes it afterwards. -/
def pointStep (maxiter : ℕ) (st : Cplx × Cplx × ℕ) : Cplx × Cplx × ℕ :=
  if normSq st.1 < 4 ∧ st.2.2 < maxiter then
    (cadd (cmul st.1 st.1) st.2.1, st.2.1, st.2.2 + 1)
  else st

/-- Modelled from the spec: the batch fractal strategy of spec §4.2.
Initialise the array state from `zs`/`cs` with all counts zero, run
`max_iterations` synchronous masked steps (after which every point has
either escaped or hit the cap), and read off the per-point counts. -/
def calculate_z_batch (maxiter : ℕ) (zs cs : List Cplx) : List ℕ :=
  let init := (zs.zip cs).map (fun p => (p.1, p.2, 0))
  let final := (fun st => st.map (pointStep maxiter))^[maxiter] init
  final.map (fun st => st.2.2)

/-! ## Particle kernel (`ParticleSim.py`), over ℝ -/

/-- The fixed internal timestep `0.00001` of both evolve methods. -/
def timestep : ℚ := 1/100000

/-- Python's `int()` applied to an exact rational: truncation toward zero. -/
def pyInt (q : ℚ) : ℤ := Int.tdiv q.num q.den

/-- `nsteps = int(dt / timestep)` as a natural number of loop iterations:
`range(n)` is empty for `n ≤ 0`, so a nonpositive `nsteps` runs zero steps. -/
def nstepsOf (dt : ℚ) : ℕ := (pyInt (dt / timestep)).toNat

/-- A particle record: mutable `x`, `y`, `ang_vel` fields of `Particle`. -/
structure Particle where
  x : ℝ
  y : ℝ
  ang_vel : ℝ

/-- One per-particle update of `evolve_python`'s inner loop:
`norm = (x**2+y**2)**0.5`, tangential direction `(-y/norm, x/norm)`,
displacement `timestep * ang_vel * v`, added to the position.
(Over ℝ, `t ** 0.5 = Real.sqrt t` for the nonnegative `t = x²+y²`.) -/
noncomputable def pstep (p : Particle) : Particle :=
  let norm : ℝ := Real.sqrt (p.x ^ 2 + p.y ^ 2)
  let v_x : ℝ := -p.y / norm
  let v_y : ℝ := p.x / norm
  let d_x : ℝ := (timestep : ℝ) * p.ang_vel * v_x
  let d_y : ℝ := (timestep : ℝ) * p.ang_vel * v_y
  { p with x := p.x + d_x, y := p.y + d_y }

/-- `ParticleSimulator.evolve_python(dt)`: `nsteps` sweeps, each updating
every particle once.  The source's in-place sweep touches each particle
independently (no cross-particle reads), so one sweep is `List.map pstep`. -/
noncomputable def evolve_python (ps : List Particle) (dt : ℚ) : List Particle :=
  (fun l => l.map pstep)^[nstepsOf dt] ps

/-- One array step of `evolve_numpy`: `norm_i = ||r_i||` rowwise,
`v_i = (-y, x) / norm_i`, `d_i = timestep * ang_vel_i * v_i`, `r_i += d_i`.
`w` is the angular-velocity array, `r` the position array. -/
noncomputable def numpyStep (w : List ℝ) (r : List (ℝ × ℝ)) : List (ℝ × ℝ) :=
  List.zipWith (fun ri wi =>
    let norm : ℝ := Real.sqrt (ri.1 ^ 2 + ri.2 ^ 2)
    let v_x : ℝ := -ri.2 / norm
    let v_y : ℝ := ri.1 / norm
    (ri.1 + (timestep : ℝ) * wi * v_x, ri.2 + (timestep : ℝ) * wi * v_y)) r w

/-- `ParticleSimulator` state: the particle list plus the lazily created
numpy arrays `r_i`, `ang_vel_i` (`none` until the first `evolve_numpy` call;
`hasattr(self, 'r_i')` tests exactly this). -/
structure Simulator where
  particles : List Particle
  cache : Option (List (ℝ × ℝ) × List ℝ)

/-- `ParticleSimulator.evolve_numpy(dt)`: create `r_i`/`ang_vel_i` from the
particle records only when absent, run `nsteps` array steps, then copy the
final rows back into the particles' `x`/`y` fields (their `ang_vel` fields
are untouched).  The updated arrays persist on the simulator. -/
noncomputable def evolve_numpy (s : Simulator) (dt : ℚ) : Simulator :=
  let c : List (ℝ × ℝ) × List ℝ := match s.cache with
    | none => (s.particles.map (fun p => (p.x, p.y)), s.particles.map (fun p => p.ang_vel))
    | some c => c
  let r := (numpyStep c.2)^[nstepsOf dt] c.1
  { particles := List.zipWith (fun p ri => { p with x := ri.1, y := ri.2 }) s.particles r,
    cache := some (r, c.2) }

/-- The `(x, y)` positions of a particle list, the data compared by
`test_evolve` and by the equivalence contract of spec §4.3. -/
def positionsOf (ps : List Particle) : List (ℝ × ℝ) :=
  ps.map (fun p => (p.x, p.y))

/-! ## Supporting lemmas: the accumulation loops as arithmetic progressions -/

/-- `abs(z) < 2` of the source is exactly the strict squared test of the
embedding: the Euclidean modulus of `z` is below 2 iff `normSq z < 4`. -/
theorem abs_lt_two_iff_normSq_lt_four (z : Cplx) :
    Real.sqrt ((z.1 : ℝ) ^ 2 + (z.2 : ℝ) ^ 2) < 2 ↔ normSq z < 4 := by
  have hnn : (0:ℝ) ≤ (z.1 : ℝ) ^ 2 + (z.2 : ℝ) ^ 2 := by positivity
  rw [show (2:ℝ) = Real.sqrt 4 by
        rw [show (4:ℝ) = 2 ^ 2 by norm_num, Real.sqrt_sq (by norm_num)],
    Real.sqrt_lt_sqrt_iff hnn]
  constructor
  · intro h
    have : ((normSq z : ℚ) : ℝ) < ((4:ℚ) : ℝ) := by
      push_cast
      simpa [normSq, sq] using h
    exact_mod_cast this
  · intro h
    have : ((normSq z : ℚ) : ℝ) < ((4:ℚ) : ℝ) := by exact_mod_cast h
    push_cast at this
    simpa [normSq, sq] using this

/-- The ascending loop lists exactly the arithmetic progression of the
first `⌈(hi - xc)/step⌉` values `xc + k·step`. -/
theorem buildAsc_eq (hi step : ℚ) (hstep : 0 < step) :
    ∀ (N : ℕ) (xc : ℚ), (⌈(hi - xc) / step⌉).toNat = N →
      buildAsc hi step hstep xc = (List.range N).map (fun k : ℕ => xc + (k : ℚ) * step) := by
  intro N
  induction N with
  | zero =>
    intro xc hN
    have hle : (hi - xc) / step ≤ 0 := by
      have := Int.toNat_eq_zero.mp hN
      exact_mod_cast Int.ceil_le.mp (by exact_mod_cast this)
    have hxc : ¬ xc < hi := by
      intro hlt
      exact absurd (div_pos (by linarith) hstep) (not_lt.mpr hle)
    rw [buildAsc, if_neg hxc]
    rfl
  | succ N ih =>
    intro xc hN
    have hpos : (0:ℤ) < ⌈(hi - xc) / step⌉ := by omega
    have hq : (0:ℚ) < (hi - xc) / step := Int.ceil_pos.mp hpos
    have hxc : xc < hi := by
      by_contra hcon
      have : (hi - xc) / step ≤ 0 :=
        div_nonpos_of_nonpos_of_nonneg (by linarith) (le_of_lt hstep)
      linarith
    have hstep2 : (hi - (xc + step)) / step = (hi - xc) / step - 1 := by
      rw [show hi - (xc + step) = (hi - xc) - step by ring, sub_div,
        div_self (ne_of_gt hstep)]
    have hN2 : (⌈(hi - (xc + step)) / step⌉).toNat = N := by
      rw [hstep2, Int.ceil_sub_one]
      omega
    rw [buildAsc, if_pos hxc, ih (xc + step) hN2, List.range_succ_eq_map]
    simp only [List.map_cons, List.map_map]
    congr 1
    · push_cast
      ring
    · apply List.map_congr_left
      intro k _
      simp only [Function.comp_apply]
      push_cast
      ring

/-- The descending loop lists exactly the arithmetic progression of the
first `⌈(yc - lo)/(-step)⌉` values `yc + k·step` (with `step < 0`). -/
theorem buildDesc_eq (lo step : ℚ) (hstep : step < 0) :
    ∀ (N : ℕ) (yc : ℚ), (⌈(yc - lo) / (-step)⌉).toNat = N →
      buildDesc lo step hstep yc = (List.range N).map (fun k : ℕ => yc + (k : ℚ) * step) := by
  intro N
  induction N with
  | zero =>
    intro yc hN
    have hpos : (0:ℚ) < -step := by linarith
    have hle : (yc - lo) / (-step) ≤ 0 := by
      have := Int.toNat_eq_zero.mp hN
      exact_mod_cast Int.ceil_le.mp (by exact_mod_cast this)
    have hyc : ¬ lo < yc := by
      intro hlt
      exact absurd (div_pos (by linarith) hpos) (not_lt.mpr hle)
    rw [buildDesc, if_neg hyc]
    rfl
  | succ N ih =>
    intro yc hN
    have hpos : (0:ℚ) < -step := by linarith
    have hcpos : (0:ℤ) < ⌈(yc - lo) / (-step)⌉ := by omega
    have hq : (0:ℚ) < (yc - lo) / (-step) := Int.ceil_pos.mp hcpos
    have hyc : lo < yc := by
      by_contra hcon
      have : (yc - lo) / (-step) ≤ 0 :=
        div_nonpos_of_nonpos_of_nonneg (by linarith) (le_of_lt hpos)
      linarith
    have hstep2 : ((yc + step) - lo) / (-step) = (yc - lo) / (-step) - 1 := by
      rw [show (yc + step) - lo = (yc - lo) - (-step) by ring, sub_div,
        div_self (ne_of_gt hpos)]
    have hN2 : (⌈((yc + step) - lo) / (-step)⌉).toNat = N := by
      rw [hstep2, Int.ceil_sub_one]
      omega
    rw [buildDesc, if_pos hyc, ih (yc + step) hN2, List.range_succ_eq_map]
    simp only [List.map_cons, List.map_map]
    congr 1
    · push_cast
      ring
    · apply List.map_congr_left
      intro k _
      simp only [Function.comp_apply]
      push_cast
      ring

/-- With the source's step `(hib - lob) / w`, the ascending loop count is
exactly `w`. -/
theorem buildAsc_count (lob hib : ℚ) (w : ℕ) (hw : 0 < w) (hlt : lob < hib) :
    (⌈(hib - lob) / ((hib - lob) / w)⌉).toNat = w := by
  have hne : hib - lob ≠ 0 := by linarith
  have hwq : (w:ℚ) ≠ 0 := Nat.cast_ne_zero.mpr hw.ne'
  rw [show (hib - lob) / ((hib - lob) / w) = (w:ℚ) by field_simp]
  rw [Int.ceil_natCast]
  exact Int.toNat_natCast w

/-- Length of a flattened list of uniform-length rows. -/
theorem flatten_length_uniform {α : Type} (L : List (List α)) (m : ℕ)
    (hL : ∀ l ∈ L, l.length = m) : L.flatten.length = L.length * m := by
  induction L with
  | nil => simp
  | cons l L ih =>
    simp only [List.flatten_cons, List.length_append, List.length_cons]
    rw [hL l (List.mem_cons_self l L), ih (fun a ha => hL a (List.mem_cons_of_mem l ha))]
    ring

/-- Row-major indexing into a flattened list of uniform-length rows:
flat index `i * m + j` addresses column `j` of row `i`. -/
theorem flatten_getD_uniform {α : Type} (d : α) :
    ∀ (L : List (List α)) (m i j : ℕ), (∀ l ∈ L, l.length = m) →
      i < L.length → j < m →
      L.flatten.getD (i * m + j) d = (L.getD i []).getD j d := by
  intro L
  induction L with
  | nil => intro m i j _ hi _; exact absurd hi (by simp)
  | cons l L ih =>
    intro m i j hL hi hj
    have hl : l.length = m := hL l (List.mem_cons_self l L)
    match i with
    | 0 =>
      simp only [List.flatten_cons, Nat.zero_mul, Nat.zero_add, List.getD_cons_zero]
      have hjl : j < l.length := by omega
      have hjapp : j < (l ++ L.flatten).length := by
        simp only [List.length_append]; omega
      rw [List.getD_eq_getElem _ _ hjapp, List.getElem_append_left hjl,
        List.getD_eq_getElem _ _ hjl]
    | i + 1 =>
      simp only [List.flatten_cons]
      have hidx : (i + 1) * m + j = l.length + (i * m + j) := by
        rw [hl]; ring
      rw [hidx]
      have key : (l ++ L.flatten).getD (l.length + (i * m + j)) d
          = L.flatten.getD (i * m + j) d := by
        rcases Nat.lt_or_ge (i * m + j) L.flatten.length with hin | hout
        · have h2 : l.length + (i * m + j) < (l ++ L.flatten).length := by
            simp only [List.length_append]; omega
          rw [List.getD_eq_getElem _ _ h2,
            List.getElem_append_right (by omega),
            List.getD_eq_getElem _ _ (by omega)]
          congr 1
          omega
        · rw [List.getD_eq_getElem?_getD, List.getElem?_eq_none
              (by simp only [List.length_append]; omega),
            List.getD_eq_getElem?_getD, List.getElem?_eq_none hout]
      rw [key, List.getD_cons_succ]
      exact ih m i j (fun a ha => hL a (List.mem_cons_of_mem l ha))
        (by simpa using hi) hj

/-- The x loop of `calc_pure_python`, at step `(xhi - xlo)/w`, is the
`w`-term arithmetic progression starting at `xlo`. -/
theorem buildAsc_std (xlo xhi : ℚ) (w : ℕ) (hw : 0 < w) (hx : xlo < xhi)
    (hxs : 0 < (xhi - xlo) / (w:ℚ)) :
    buildAsc xhi ((xhi - xlo) / w) hxs xlo
      = (List.range w).map (fun k : ℕ => xlo + (k:ℚ) * ((xhi - xlo) / w)) :=
  buildAsc_eq xhi _ hxs w xlo (buildAsc_count xlo xhi w hw hx)

/-- The y loop of `calc_pure_python`, at step `(ylo - yhi)/w`, is the
`w`-term arithmetic progression starting at `yhi` (descending). -/
theorem buildDesc_std (ylo yhi : ℚ) (w : ℕ) (hw : 0 < w) (hy : ylo < yhi)
    (hys : (ylo - yhi) / (w:ℚ) < 0) :
    buildDesc ylo ((ylo - yhi) / w) hys yhi
      = (List.range w).map (fun k : ℕ => yhi + (k:ℚ) * ((ylo - yhi) / w)) := by
  apply buildDesc_eq
  rw [show -((ylo - yhi) / (w:ℚ)) = (yhi - ylo) / w by ring]
  exact buildAsc_count ylo yhi w hw hy

/-- C8: for every valid grid configuration, the x sequence built by
fixed-step accumulation from the lower bound is strictly increasing, has
length `⌈(x2 - x1) / x_step⌉` and its last element (indeed every element)
is strictly below `x2`; symmetrically the y sequence starts at `y2`, is
strictly decreasing and its last element (indeed every element) is
strictly above `y1`. -/
theorem grid_axis_sequences_spec (xlo xhi ylo yhi : ℚ) (w : ℕ)
    (hw : 0 < w) (hx : xlo < xhi) (hy : ylo < yhi)
    (hxs : 0 < (xhi - xlo) / (w:ℚ)) (hys : (ylo - yhi) / (w:ℚ) < 0) :
    (buildAsc xhi ((xhi - xlo) / w) hxs xlo).length
        = (⌈(xhi - xlo) / ((xhi - xlo) / w)⌉).toNat
      ∧ (buildAsc xhi ((xhi - xlo) / w) hxs xlo).Pairwise (· < ·)
      ∧ (buildAsc xhi ((xhi - xlo) / w) hxs xlo).head? = some xlo
      ∧ (∀ a ∈ buildAsc xhi ((xhi - xlo) / w) hxs xlo, a < xhi)
      ∧ (∀ a ∈ (buildAsc xhi ((xhi - xlo) / w) hxs xlo).getLast?, a < xhi)
      ∧ (buildDesc ylo ((ylo - yhi) / w) hys yhi).Pairwise (fun a b => b < a)
      ∧ (buildDesc ylo ((ylo - yhi) / w) hys yhi).head? = some yhi
      ∧ (∀ a ∈ buildDesc ylo ((ylo - yhi) / w) hys yhi, ylo < a)
      ∧ (∀ a ∈ (buildDesc ylo ((ylo - yhi) / w) hys yhi).getLast?, ylo < a) := by
  set x := buildAsc xhi ((xhi - xlo) / w) hxs xlo with hxd
  set y := buildDesc ylo ((ylo - yhi) / w) hys yhi with hyd
  have hwq : (0:ℚ) < (w:ℚ) := by exact_mod_cast hw
  have hxchar : x = (List.range w).map
      (fun k : ℕ => xlo + (k:ℚ) * ((xhi - xlo) / w)) :=
    buildAsc_std xlo xhi w hw hx hxs
  have hychar : y = (List.range w).map
      (fun k : ℕ => yhi + (k:ℚ) * ((ylo - yhi) / w)) :=
    buildDesc_std ylo yhi w hw hy hys
  obtain ⟨n, hn⟩ : ∃ n, w = n + 1 := ⟨w - 1, by omega⟩
  have hxlt : ∀ a ∈ x, a < xhi := by
    rw [hxchar]
    intro a ha
    simp only [List.mem_map, List.mem_range] at ha
    obtain ⟨k, hk, rfl⟩ := ha
    have hkq : (k:ℚ) < w := by exact_mod_cast hk
    have hws : (w:ℚ) * ((xhi - xlo) / w) = xhi - xlo := by field_simp
    have := mul_lt_mul_of_pos_right hkq hxs
    linarith
  have hygt : ∀ a ∈ y, ylo < a := by
    rw [hychar]
    intro a ha
    simp only [List.mem_map, List.mem_range] at ha
    obtain ⟨k, hk, rfl⟩ := ha
    have hkq : (k:ℚ) < w := by exact_mod_cast hk
    have hws : (w:ℚ) * ((ylo - yhi) / w) = ylo - yhi := by field_simp
    have := mul_lt_mul_of_neg_right hkq hys
    linarith
  refine ⟨?_, ?_, ?_, hxlt, ?_, ?_, ?_, hygt, ?_⟩
  · rw [hxchar, List.length_map, List.length_range,
      buildAsc_count xlo xhi w hw hx]
  · rw [hxchar]
    exact List.Pairwise.map _
      (fun a b hab => by
        have : (a:ℚ) < b := by exact_mod_cast hab
        have := mul_lt_mul_of_pos_right this hxs
        linarith)
      (List.pairwise_lt_range w)
  · rw [hxchar, hn, List.range_succ_eq_map, List.map_cons, List.head?_cons]
    norm_num
  · intro a ha
    obtain ⟨hne, rfl⟩ := List.mem_getLast?_eq_getLast ha
    exact hxlt _ (List.getLast_mem hne)
  · rw [hychar]
    exact List.Pairwise.map _
      (fun a b hab => by
        have : (a:ℚ) < b := by exact_mod_cast hab
        have := mul_lt_mul_of_neg_right this hys
        linarith)
      (List.pairwise_lt_range w)
  · rw [hychar, hn, List.range_succ_eq_map, List.map_cons, List.head?_cons]
    norm_num
  · intro a ha
    obtain ⟨hne, rfl⟩ := List.mem_getLast?_eq_getLast ha
    exact hygt _ (List.getLast_mem hne)

/-- Witness for C8 at the reference bounds `±1.8` with `desired_width = 2`. -/
theorem grid_axis_sequences_spec_witness :
    ((0:ℕ) < 2) ∧ ((-9/5 : ℚ) < 9/5) ∧ ((-9/5 : ℚ) < 9/5)
      ∧ (0 < ((9/5 : ℚ) - (-9/5)) / ((2:ℕ):ℚ))
      ∧ (((-9/5 : ℚ) - 9/5) / ((2:ℕ):ℚ) < 0)
      ∧ ((buildAsc (9/5) (((9/5 : ℚ) - (-9/5)) / ((2:ℕ):ℚ)) (by norm_num) (-9/5)).length
            = (⌈((9/5 : ℚ) - (-9/5)) / (((9/5 : ℚ) - (-9/5)) / ((2:ℕ):ℚ))⌉).toNat
          ∧ (buildAsc (9/5) (((9/5 : ℚ) - (-9/5)) / ((2:ℕ):ℚ)) (by norm_num) (-9/5)).Pairwise (· < ·)
          ∧ (buildAsc (9/5) (((9/5 : ℚ) - (-9/5)) / ((2:ℕ):ℚ)) (by norm_num) (-9/5)).head? = some (-9/5)
          ∧ (∀ a ∈ buildAsc (9/5) (((9/5 : ℚ) - (-9/5)) / ((2:ℕ):ℚ)) (by norm_num) (-9/5), a < 9/5)
          ∧ (∀ a ∈ (buildAsc (9/5) (((9/5 : ℚ) - (-9/5)) / ((2:ℕ):ℚ)) (by norm_num) (-9/5)).getLast?, a < 9/5)
          ∧ (buildDesc (-9/5) (((-9/5 : ℚ) - 9/5) / ((2:ℕ):ℚ)) (by norm_num) (9/5)).Pairwise (fun a b => b < a)
          ∧ (buildDesc (-9/5) (((-9/5 : ℚ) - 9/5) / ((2:ℕ):ℚ)) (by norm_num) (9/5)).head? = some (9/5)
          ∧ (∀ a ∈ buildDesc (-9/5) (((-9/5 : ℚ) - 9/5) / ((2:ℕ):ℚ)) (by norm_num) (9/5), -9/5 < a)
          ∧ (∀ a ∈ (buildDesc (-9/5) (((-9/5 : ℚ) - 9/5) / ((2:ℕ):ℚ)) (by norm_num) (9/5)).getLast?, -9/5 < a)) :=
  ⟨by norm_num, by norm_num, by norm_num, by norm_num, by norm_num,
    grid_axis_sequences_spec (-9/5) (9/5) (-9/5) (9/5) 2 (by norm_num)
      (by norm_num) (by norm_num) (by norm_num) (by norm_num)⟩

/-- C7: the grid builder produces `zs` and `cs` of equal length
`x_count * y_count`, traversed row-major (y outer/descending, x
inner/ascending): the element at flat index `i * x_count + j` is the
complex point `(x[j], y[i])`, paired with the fixed parameter `c` at the
same index. -/
theorem grid_rowmajor_spec (xlo xhi ylo yhi : ℚ) (w : ℕ) (c : Cplx)
    (hw : 0 < w) (hx : xlo < xhi) (hy : ylo < yhi)
    (hxs : 0 < (xhi - xlo) / (w:ℚ)) (hys : (ylo - yhi) / (w:ℚ) < 0) :
    let x := buildAsc xhi ((xhi - xlo) / w) hxs xlo
    let y := buildDesc ylo ((ylo - yhi) / w) hys yhi
    let zs := buildZs y x
    let cs := buildCs y x c
    zs.length = cs.length ∧ zs.length = x.length * y.length
      ∧ ∀ i j, i < y.length → j < x.length →
          zs.getD (i * x.length + j) ((0:ℚ), (0:ℚ)) = (x.getD j 0, y.getD i 0)
          ∧ cs.getD (i * x.length + j) ((0:ℚ), (0:ℚ)) = c := by
  intro x y zs cs
  have hLz : ∀ l ∈ y.map (fun yc => x.map (fun xc => ((xc, yc) : Cplx))),
      l.length = x.length := by
    intro l hl
    simp only [List.mem_map] at hl
    obtain ⟨yc, _, rfl⟩ := hl
    simp
  have hLc : ∀ l ∈ y.map (fun _ => x.map (fun _ => c)), l.length = x.length := by
    intro l hl
    simp only [List.mem_map] at hl
    obtain ⟨yc, _, rfl⟩ := hl
    simp
  have hzlen : zs.length = y.length * x.length := by
    show (List.flatten _).length = _
    rw [flatten_length_uniform _ x.length hLz, List.length_map]
  have hclen : cs.length = y.length * x.length := by
    show (List.flatten _).length = _
    rw [flatten_length_uniform _ x.length hLc, List.length_map]
  refine ⟨by rw [hzlen, hclen], by rw [hzlen, Nat.mul_comm], ?_⟩
  intro i j hi hj
  have hLzi : i < (y.map (fun yc => x.map (fun xc => ((xc, yc) : Cplx)))).length := by
    simpa using hi
  have hLci : i < (y.map (fun _ => x.map (fun _ => c))).length := by
    simpa using hi
  have hjx : j < (x.map (fun xc => ((xc, y[i]) : Cplx))).length := by
    simpa using hj
  have hjc : j < (x.map (fun _ => c)).length := by simpa using hj
  constructor
  · show (List.flatten _).getD _ _ = _
    rw [flatten_getD_uniform _ _ x.length i j hLz hLzi hj,
      List.getD_eq_getElem _ _ hLzi, List.getElem_map,
      List.getD_eq_getElem _ _ hjx, List.getElem_map,
      List.getD_eq_getElem x _ hj, List.getD_eq_getElem y _ hi]
  · show (List.flatten _).getD _ _ = _
    rw [flatten_getD_uniform _ _ x.length i j hLc hLci hj,
      List.getD_eq_getElem _ _ hLci, List.getElem_map,
      List.getD_eq_getElem _ _ hjc, List.getElem_map]

/-- Witness for C7 at the reference bounds `±1.8`, parameter
`(-0.62772, -0.42193)`, `desired_width = 2`. -/
theorem grid_rowmajor_spec_witness :
    ((0:ℕ) < 2) ∧ ((-9/5 : ℚ) < 9/5) ∧ ((-9/5 : ℚ) < 9/5)
      ∧ (0 < ((9/5 : ℚ) - (-9/5)) / ((2:ℕ):ℚ))
      ∧ (((-9/5 : ℚ) - 9/5) / ((2:ℕ):ℚ) < 0)
      ∧ (let x := buildAsc (9/5) (((9/5 : ℚ) - (-9/5)) / ((2:ℕ):ℚ))
           (by norm_num) (-9/5)
         let y := buildDesc (-9/5) (((-9/5 : ℚ) - 9/5) / ((2:ℕ):ℚ))
           (by norm_num) (9/5)
         let zs := buildZs y x
         let cs := buildCs y x (c_real, c_imag)
         zs.length = cs.length ∧ zs.length = x.length * y.length
           ∧ ∀ i j, i < y.length → j < x.length →
               zs.getD (i * x.length + j) ((0:ℚ), (0:ℚ))
                   = (x.getD j 0, y.getD i 0)
               ∧ cs.getD (i * x.length + j) ((0:ℚ), (0:ℚ))
                   = (c_real, c_imag)) :=
  ⟨by norm_num, by norm_num, by norm_num, by norm_num, by norm_num,
    grid_rowmajor_spec (-9/5) (9/5) (-9/5) (9/5) 2 (c_real, c_imag)
      (by norm_num) (by norm_num) (by norm_num) (by norm_num) (by norm_num)⟩

/-- Folding `set` writes over an index list preserves the length. -/
theorem foldl_set_length {α : Type} (g : ℕ → α) :
    ∀ (is : List ℕ) (out : List α),
      (is.foldl (fun o i => o.set i (g i)) out).length = out.length := by
  intro is
  induction is with
  | nil => intro out; rfl
  | cons i is ih =>
    intro out
    rw [List.foldl_cons, ih, List.length_set]

/-- Folding `set` writes over a duplicate-free index list: position `j`
holds `g j` if some write hit it, and the original entry otherwise. -/
theorem foldl_set_getElem? {α : Type} (g : ℕ → α) :
    ∀ (is : List ℕ), is.Nodup → ∀ (out : List α) (j : ℕ),
      (is.foldl (fun o i => o.set i (g i)) out)[j]? =
        if j ∈ is ∧ j < out.length then some (g j) else out[j]? := by
  intro is
  induction is with
  | nil =>
    intro _ out j
    simp
  | cons i is ih =>
    intro hnd out j
    rw [List.nodup_cons] at hnd
    rw [List.foldl_cons, ih hnd.2, List.length_set]
    by_cases hji : j = i
    · subst hji
      have hnotin : j ∉ is := hnd.1
      by_cases hlen : j < out.length
      · simp only [hnotin, false_and, if_false, List.getElem?_set, if_pos rfl,
          if_pos hlen, List.mem_cons, true_or, true_and, if_pos hlen]
        simp
      · simp only [hnotin, false_and, if_false, List.getElem?_set, if_pos rfl,
          if_neg hlen, List.mem_cons, true_or, true_and, if_neg hlen]
        simp
        omega
    · have hset : (out.set i (g i))[j]? = out[j]? := by
        rw [List.getElem?_set, if_neg (fun h => hji h.symm)]
      rw [hset]
      by_cases hmem : j ∈ is
      · simp [hmem, List.mem_cons]
      · simp [hmem, List.mem_cons, hji]

/-- `calculate_z_serial_purepython` computes, at every index `i`, exactly
the escape count of point `i`: the write-loop over the preallocated output
equals the pointwise map of the escape loop. -/
theorem calc_z_serial_eq_map (maxiter : ℕ) (zs cs : List Cplx) :
    calculate_z_serial_purepython maxiter zs cs
      = (List.range zs.length).map
          (fun i => juliaLoop maxiter (cs.getD i (0, 0)) (zs.getD i (0, 0)) 0) := by
  apply List.ext_getElem?
  intro j
  show ((List.range zs.length).foldl _ (List.replicate zs.length 0))[j]? = _
  rw [foldl_set_getElem? _ (List.range zs.length) (List.nodup_range zs.length)]
  by_cases hj : j < zs.length
  · rw [if_pos ⟨List.mem_range.mpr hj, by simpa using hj⟩,
      List.getElem?_eq_getElem (by simpa using hj), List.getElem_map,
      List.getElem_range]
  · rw [if_neg (fun hcon => hj (List.mem_range.mp hcon.1)),
      List.getElem?_eq_none (by simp; omega),
      List.getElem?_eq_none (by simp; omega)]

/-- C2: for equal-length `zs`, `cs` and any `max_iterations`, the serial
kernel returns one count per input point (each slot written exactly once by
the write loop, as captured by `calc_z_serial_eq_map`), the count at index
`i` being the value of the `while normSq z < 4 ∧ n < maxiter` loop started
at `z = zs[i]`, `c = cs[i]`, `n = 0`; the loop test is the strict Euclidean
modulus test (`|z| < 2 ↔ normSq z < 4`, no epsilon). -/
theorem serial_kernel_pointwise (maxiter : ℕ) (zs cs : List Cplx)
    (h : cs.length = zs.length) :
    (calculate_z_serial_purepython maxiter zs cs).length = zs.length
      ∧ (∀ i, i < zs.length →
          (calculate_z_serial_purepython maxiter zs cs).getD i 0
            = juliaLoop maxiter (cs.getD i (0, 0)) (zs.getD i (0, 0)) 0)
      ∧ (∀ (z c : Cplx) (n : ℕ), juliaLoop maxiter c z n
            = if normSq z < 4 ∧ n < maxiter then
                juliaLoop maxiter c (cadd (cmul z z) c) (n + 1)
              else n)
      ∧ (∀ z : Cplx, Real.sqrt ((z.1 : ℝ) ^ 2 + (z.2 : ℝ) ^ 2) < 2
            ↔ normSq z < 4) := by
  refine ⟨?_, ?_, ?_, abs_lt_two_iff_normSq_lt_four⟩
  · rw [calc_z_serial_eq_map, List.length_map, List.length_range]
  · intro i hi
    rw [calc_z_serial_eq_map,
      List.getD_eq_getElem _ _ (by simpa using hi), List.getElem_map,
      List.getElem_range]
  · intro z c n
    conv_lhs => rw [juliaLoop]

/-- Witness for C2 on the one-point grid `zs = cs = [(0, 0)]`, two
iterations allowed. -/
theorem serial_kernel_pointwise_witness :
    ([((0:ℚ), (0:ℚ))].length = [((0:ℚ), (0:ℚ))].length)
      ∧ ((calculate_z_serial_purepython 2 [(0, 0)] [(0, 0)]).length
            = [((0:ℚ), (0:ℚ))].length
          ∧ (∀ i, i < [((0:ℚ), (0:ℚ))].length →
              (calculate_z_serial_purepython 2 [(0, 0)] [(0, 0)]).getD i 0
                = juliaLoop 2 ([((0:ℚ), (0:ℚ))].getD i (0, 0))
                    ([((0:ℚ), (0:ℚ))].getD i (0, 0)) 0)
          ∧ (∀ (z c : Cplx) (n : ℕ), juliaLoop 2 c z n
                = if normSq z < 4 ∧ n < 2 then
                    juliaLoop 2 c (cadd (cmul z z) c) (n + 1)
                  else n)
          ∧ (∀ z : Cplx, Real.sqrt ((z.1 : ℝ) ^ 2 + (z.2 : ℝ) ^ 2) < 2
                ↔ normSq z < 4)) :=
  ⟨rfl, serial_kernel_pointwise 2 [(0, 0)] [(0, 0)] rfl⟩

/-- Iterating a mapped step over a list is mapping the iterated step. -/
theorem iterate_map_eq_map_iterate {α : Type} (f : α → α) :
    ∀ (n : ℕ) (l : List α), (fun L => L.map f)^[n] l = l.map f^[n] := by
  intro n
  induction n with
  | zero => intro l; simp
  | succ n ih =>
    intro l
    rw [Function.iterate_succ_apply, ih, List.map_map,
      ← Function.iterate_succ f n]

/-- Running the masked batch update for enough steps finalises a point at
exactly the serial escape count: once a point escapes or hits the cap the
mask freezes it, so its recorded count is "iterations until escape or cap". -/
theorem pointStep_iterate (maxiter : ℕ) :
    ∀ (fuel : ℕ) (z c : Cplx) (n : ℕ), maxiter ≤ n + fuel →
      ((pointStep maxiter)^[fuel] (z, c, n)).2.2 = juliaLoop maxiter c z n := by
  intro fuel
  induction fuel with
  | zero =>
    intro z c n h
    rw [Function.iterate_zero_apply, juliaLoop,
      if_neg (by push_neg; intro _; omega)]
  | succ fuel ih =>
    intro z c n h
    rw [Function.iterate_succ_apply]
    by_cases hc : normSq z < 4 ∧ n < maxiter
    · rw [show pointStep maxiter (z, c, n) = (cadd (cmul z z) c, c, n + 1) by
          rw [pointStep, if_pos hc],
        ih _ _ _ (by omega)]
      conv_rhs => rw [juliaLoop]
      rw [if_pos hc]
    · rw [show pointStep maxiter (z, c, n) = (z, c, n) by
          rw [pointStep, if_neg hc],
        Function.iterate_fixed (by rw [pointStep, if_neg hc]) fuel]
      conv_rhs => rw [juliaLoop]
      rw [if_neg hc]

/-- C3: the scalar strategy (`calculate_z_serial_purepython`, from the
source) and the batch strategy (`calculate_z_batch`, modelled from spec
§4.2) produce identical IterationCounts, index for index, for every pair of
equal-length inputs and every iteration cap. -/
theorem batch_eq_serial (maxiter : ℕ) (zs cs : List Cplx)
    (h : cs.length = zs.length) :
    calculate_z_batch maxiter zs cs = calculate_z_serial_purepython maxiter zs cs := by
  rw [calc_z_serial_eq_map]
  show ((fun st : List (Cplx × Cplx × ℕ) => st.map (pointStep maxiter))^[maxiter]
      ((zs.zip cs).map (fun p => (p.1, p.2, 0)))).map (fun st => st.2.2) = _
  rw [iterate_map_eq_map_iterate, List.map_map, List.map_map]
  apply List.ext_getElem
  · simp [List.length_zip, h]
  · intro i hi hi2
    simp only [List.getElem_map, Function.comp_apply, List.getElem_zip,
      List.getElem_range]
    have hiz : i < zs.length := by
      simp only [List.length_map, List.length_range] at hi2
      exact hi2
    have hic : i < cs.length := by omega
    rw [pointStep_iterate maxiter maxiter _ _ 0 (by omega),
      List.getD_eq_getElem zs _ hiz, List.getD_eq_getElem cs _ hic]

/-- Witness for C3 on the one-point grid `zs = cs = [(0, 0)]`, cap 2. -/
theorem batch_eq_serial_witness :
    ([((0:ℚ), (0:ℚ))].length = [((0:ℚ), (0:ℚ))].length)
      ∧ calculate_z_batch 2 [(0, 0)] [(0, 0)]
          = calculate_z_serial_purepython 2 [(0, 0)] [(0, 0)] :=
  ⟨rfl, batch_eq_serial 2 [(0, 0)] [(0, 0)] rfl⟩

/-- C10: every `calc_pure_python` call, whatever `desired_width` and
`max_iterations`, checks `sum(output) == 33219980` before returning: it
raises `AssertionError` (modelled `Except.error ()`) exactly when the sum
differs, returns the output list exactly when `return_output` is true and
the assertion holds, and returns `None` exactly when `return_output` is
false and the assertion holds. -/
theorem calc_assertion_behavior (w : ℕ) (hw : 0 < w) (maxiter : ℕ) (ro : Bool) :
    (calc_pure_python w hw maxiter ro = Except.error ()
        ↔ (calculate_z_serial_purepython maxiter
            (buildZs (buildDesc Y1 ((Y1 - Y2) / w) (ystep_neg w hw) Y2)
              (buildAsc X2 ((X2 - X1) / w) (xstep_pos w hw) X1))
            (buildCs (buildDesc Y1 ((Y1 - Y2) / w) (ystep_neg w hw) Y2)
              (buildAsc X2 ((X2 - X1) / w) (xstep_pos w hw) X1)
              (c_real, c_imag))).sum ≠ 33219980)
      ∧ (calc_pure_python w hw maxiter ro = Except.ok (some
            (calculate_z_serial_purepython maxiter
              (buildZs (buildDesc Y1 ((Y1 - Y2) / w) (ystep_neg w hw) Y2)
                (buildAsc X2 ((X2 - X1) / w) (xstep_pos w hw) X1))
              (buildCs (buildDesc Y1 ((Y1 - Y2) / w) (ystep_neg w hw) Y2)
                (buildAsc X2 ((X2 - X1) / w) (xstep_pos w hw) X1)
                (c_real, c_imag))))
          ↔ ro = true ∧ (calculate_z_serial_purepython maxiter
              (buildZs (buildDesc Y1 ((Y1 - Y2) / w) (ystep_neg w hw) Y2)
                (buildAsc X2 ((X2 - X1) / w) (xstep_pos w hw) X1))
              (buildCs (buildDesc Y1 ((Y1 - Y2) / w) (ystep_neg w hw) Y2)
                (buildAsc X2 ((X2 - X1) / w) (xstep_pos w hw) X1)
                (c_real, c_imag))).sum = 33219980)
      ∧ (calc_pure_python w hw maxiter ro = Except.ok none
          ↔ ro = false ∧ (calculate_z_serial_purepython maxiter
              (buildZs (buildDesc Y1 ((Y1 - Y2) / w) (ystep_neg w hw) Y2)
                (buildAsc X2 ((X2 - X1) / w) (xstep_pos w hw) X1))
              (buildCs (buildDesc Y1 ((Y1 - Y2) / w) (ystep_neg w hw) Y2)
                (buildAsc X2 ((X2 - X1) / w) (xstep_pos w hw) X1)
                (c_real, c_imag))).sum = 33219980) := by
  set y := buildDesc Y1 ((Y1 - Y2) / w) (ystep_neg w hw) Y2 with hyd
  set x := buildAsc X2 ((X2 - X1) / w) (xstep_pos w hw) X1 with hxd
  set output := calculate_z_serial_purepython maxiter (buildZs y x)
      (buildCs y x (c_real, c_imag)) with hod
  have hunf : calc_pure_python w hw maxiter ro
      = if output.sum = 33219980 then
          (if ro then Except.ok (some output) else Except.ok none)
        else Except.error () := rfl
  by_cases hs : output.sum = 33219980 <;> cases ro <;>
    simp [hunf, hs]

/-- Witness for C10 at `desired_width = 1`, `max_iterations = 0`,
`return_output = false`. -/
theorem calc_assertion_behavior_witness :
    ((0:ℕ) < 1)
      ∧ ((calc_pure_python 1 (by norm_num) 0 false = Except.error ()
            ↔ (calculate_z_serial_purepython 0
                (buildZs (buildDesc Y1 ((Y1 - Y2) / (1:ℕ)) (ystep_neg 1 (by norm_num)) Y2)
                  (buildAsc X2 ((X2 - X1) / (1:ℕ)) (xstep_pos 1 (by norm_num)) X1))
                (buildCs (buildDesc Y1 ((Y1 - Y2) / (1:ℕ)) (ystep_neg 1 (by norm_num)) Y2)
                  (buildAsc X2 ((X2 - X1) / (1:ℕ)) (xstep_pos 1 (by norm_num)) X1)
                  (c_real, c_imag))).sum ≠ 33219980)
          ∧ (calc_pure_python 1 (by norm_num) 0 false = Except.ok (some
                (calculate_z_serial_purepython 0
                  (buildZs (buildDesc Y1 ((Y1 - Y2) / (1:ℕ)) (ystep_neg 1 (by norm_num)) Y2)
                    (buildAsc X2 ((X2 - X1) / (1:ℕ)) (xstep_pos 1 (by norm_num)) X1))
                  (buildCs (buildDesc Y1 ((Y1 - Y2) / (1:ℕ)) (ystep_neg 1 (by norm_num)) Y2)
                    (buildAsc X2 ((X2 - X1) / (1:ℕ)) (xstep_pos 1 (by norm_num)) X1)
                    (c_real, c_imag))))
              ↔ false = true ∧ (calculate_z_serial_purepython 0
                  (buildZs (buildDesc Y1 ((Y1 - Y2) / (1:ℕ)) (ystep_neg 1 (by norm_num)) Y2)
                    (buildAsc X2 ((X2 - X1) / (1:ℕ)) (xstep_pos 1 (by norm_num)) X1))
                  (buildCs (buildDesc Y1 ((Y1 - Y2) / (1:ℕ)) (ystep_neg 1 (by norm_num)) Y2)
                    (buildAsc X2 ((X2 - X1) / (1:ℕ)) (xstep_pos 1 (by norm_num)) X1)
                    (c_real, c_imag))).sum = 33219980)
          ∧ (calc_pure_python 1 (by norm_num) 0 false = Except.ok none
              ↔ false = false ∧ (calculate_z_serial_purepython 0
                  (buildZs (buildDesc Y1 ((Y1 - Y2) / (1:ℕ)) (ystep_neg 1 (by norm_num)) Y2)
                    (buildAsc X2 ((X2 - X1) / (1:ℕ)) (xstep_pos 1 (by norm_num)) X1))
                  (buildCs (buildDesc Y1 ((Y1 - Y2) / (1:ℕ)) (ystep_neg 1 (by norm_num)) Y2)
                    (buildAsc X2 ((X2 - X1) / (1:ℕ)) (xstep_pos 1 (by norm_num)) X1)
                    (c_real, c_imag))).sum = 33219980)) :=
  ⟨by norm_num, calc_assertion_behavior 1 (by norm_num) 0 false⟩

/-! ## Particle kernel: scalar/batch agreement and no-op durations -/

/-- A nonpositive duration gives `int(dt / timestep) ≤ 0`, hence zero steps. -/
theorem nstepsOf_nonpos (dt : ℚ) (hdt : dt ≤ 0) : nstepsOf dt = 0 := by
  have hq : dt / timestep ≤ 0 := by
    apply div_nonpos_of_nonpos_of_nonneg hdt
    norm_num [timestep]
  have hnum : (dt / timestep).num ≤ 0 := Rat.num_nonpos.mpr hq
  have htd : pyInt (dt / timestep) ≤ 0 := by
    rw [pyInt, show (dt / timestep).num = -(-(dt / timestep).num) by ring,
      Int.neg_tdiv]
    have : 0 ≤ (-(dt / timestep).num).tdiv ((dt / timestep).den : ℤ) :=
      Int.tdiv_nonneg (by omega) (by positivity)
    omega
  rw [nstepsOf]
  omega

/-- One scalar sweep keeps every particle's angular velocity. -/
theorem pstep_ang_vel (p : Particle) : (pstep p).ang_vel = p.ang_vel := rfl

/-- One scalar sweep over the particle list computes exactly one batch
array step on the position array (same norms, directions, displacements). -/
theorem positionsOf_map_pstep (l : List Particle) :
    positionsOf (l.map pstep)
      = numpyStep (l.map (fun p => p.ang_vel)) (positionsOf l) := by
  show (l.map pstep).map _ = List.zipWith _ (l.map (fun p => (p.x, p.y))) _
  rw [List.map_map, List.zipWith_map, List.zipWith_same]
  rfl

/-- The angular-velocity array is invariant under scalar sweeps. -/
theorem map_ang_vel_iterate (n : ℕ) (l : List Particle) :
    ((fun L => L.map pstep)^[n] l).map (fun p => p.ang_vel)
      = l.map (fun p => p.ang_vel) := by
  induction n generalizing l with
  | zero => rfl
  | succ n ih =>
    rw [Function.iterate_succ_apply, ih, List.map_map]
    rfl

/-- `n` scalar sweeps compute exactly `n` batch array steps on the
position array. -/
theorem positionsOf_iterate (n : ℕ) (l : List Particle) :
    positionsOf ((fun L => L.map pstep)^[n] l)
      = (numpyStep (l.map (fun p => p.ang_vel)))^[n] (positionsOf l) := by
  induction n generalizing l with
  | zero => rfl
  | succ n ih =>
    rw [Function.iterate_succ_apply, ih, positionsOf_map_pstep,
      Function.iterate_succ_apply]
    congr 1
    exact (map_ang_vel_iterate 1 l).symm ▸ rfl

/-- Copying a position array back into at least as many particle records
reproduces exactly that array of positions. -/
theorem positionsOf_writeback (ps : List Particle) (r : List (ℝ × ℝ))
    (h : r.length ≤ ps.length) :
    positionsOf (List.zipWith (fun p ri => { p with x := ri.1, y := ri.2 }) ps r)
      = r := by
  induction ps generalizing r with
  | nil =>
    cases r with
    | nil => rfl
    | cons a r => simp at h
  | cons p ps ih =>
    cases r with
    | nil => rfl
    | cons a r =>
      show (_, _) :: positionsOf (List.zipWith _ ps r) = a :: r
      rw [ih r (by simpa using h)]

/-- Writing a particle list's own positions back into it is the identity. -/
theorem writeback_self (ps : List Particle) :
    List.zipWith (fun p ri => { p with x := ri.1, y := ri.2 }) ps (positionsOf ps)
      = ps := by
  induction ps with
  | nil => rfl
  | cons p ps ih =>
    show ({ p with x := p.x, y := p.y } :: List.zipWith _ ps (positionsOf ps)) = p :: ps
    rw [ih]

/-- The batch position array keeps its length across array steps when the
angular-velocity array has the same length. -/
theorem numpyStep_iterate_length (w : List ℝ) (L : ℕ) (hw : w.length = L) :
    ∀ (n : ℕ) (r : List (ℝ × ℝ)), r.length = L →
      ((numpyStep w)^[n] r).length = L := by
  intro n
  induction n with
  | zero => intro r hr; simpa using hr
  | succ n ih =>
    intro r hr
    rw [Function.iterate_succ_apply]
    exact ih _ (by rw [numpyStep, List.length_zipWith, hr, hw, Nat.min_self])

/-- On a fresh simulator, the batch strategy produces exactly the scalar
strategy's positions (the per-step arithmetic is identical, and the final
write-back copies the array into the records). -/
theorem evolve_numpy_fresh_positions (ps : List Particle) (dt : ℚ) :
    positionsOf ((evolve_numpy ⟨ps, none⟩ dt).particles)
      = positionsOf (evolve_python ps dt) := by
  have hlen : ((numpyStep (ps.map (fun p => p.ang_vel)))^[nstepsOf dt]
      (positionsOf ps)).length = ps.length :=
    numpyStep_iterate_length _ ps.length (by simp) _ _ (by simp [positionsOf])
  show positionsOf (List.zipWith (fun p ri => { p with x := ri.1, y := ri.2 }) ps
      ((numpyStep (ps.map (fun p => p.ang_vel)))^[nstepsOf dt] (positionsOf ps))) = _
  rw [positionsOf_writeback ps _ (le_of_eq hlen), evolve_python,
    positionsOf_iterate]

/-- C4: for every particle set with all particles at nonzero radius and
every duration, the scalar strategy (`evolve_python`) and the batch
strategy (`evolve_numpy`, on a fresh simulator over an identical copy of
the input) give final x and y positions within `1e-5` of each other for
every particle (indeed the exact embeddings agree exactly, so the
difference is 0). -/
theorem evolve_strategies_agree (ps : List Particle) (dt : ℚ)
    (hr : ∀ p ∈ ps, p.x ^ 2 + p.y ^ 2 ≠ 0) :
    (evolve_python ps dt).length = (evolve_numpy ⟨ps, none⟩ dt).particles.length
      ∧ ∀ i, i < ps.length →
        |((positionsOf (evolve_python ps dt)).getD i (0, 0)).1
            - ((positionsOf ((evolve_numpy ⟨ps, none⟩ dt).particles)).getD i (0, 0)).1|
          ≤ 1 / 100000
        ∧ |((positionsOf (evolve_python ps dt)).getD i (0, 0)).2
            - ((positionsOf ((evolve_numpy ⟨ps, none⟩ dt).particles)).getD i (0, 0)).2|
          ≤ 1 / 100000 := by
  have hpos := evolve_numpy_fresh_positions ps dt
  constructor
  · have h1 : (evolve_python ps dt).length = (positionsOf (evolve_python ps dt)).length := by
      simp [positionsOf]
    have h2 : (evolve_numpy ⟨ps, none⟩ dt).particles.length
        = (positionsOf ((evolve_numpy ⟨ps, none⟩ dt).particles)).length := by
      simp [positionsOf]
    rw [h1, h2, hpos]
  · intro i _
    rw [hpos]
    constructor <;>
      simp only [sub_self, abs_zero] <;> norm_num

/-- Witness for C4: one particle at `(1, 0)` with angular velocity 1,
duration `0.1`. -/
theorem evolve_strategies_agree_witness :
    (∀ p ∈ [Particle.mk 1 0 1], p.x ^ 2 + p.y ^ 2 ≠ 0)
      ∧ ((evolve_python [Particle.mk 1 0 1] (1/10)).length
            = (evolve_numpy ⟨[Particle.mk 1 0 1], none⟩ (1/10)).particles.length
          ∧ ∀ i, i < [Particle.mk 1 0 1].length →
            |((positionsOf (evolve_python [Particle.mk 1 0 1] (1/10))).getD i (0, 0)).1
                - ((positionsOf ((evolve_numpy ⟨[Particle.mk 1 0 1], none⟩ (1/10)).particles)).getD
                    i (0, 0)).1|
              ≤ 1 / 100000
            ∧ |((positionsOf (evolve_python [Particle.mk 1 0 1] (1/10))).getD i (0, 0)).2
                - ((positionsOf ((evolve_numpy ⟨[Particle.mk 1 0 1], none⟩ (1/10)).particles)).getD
                    i (0, 0)).2|
              ≤ 1 / 100000) :=
  ⟨by
      intro p hp
      simp only [List.mem_singleton] at hp
      subst hp
      norm_num,
    evolve_strategies_agree [Particle.mk 1 0 1] (1/10) (by
      intro p hp
      simp only [List.mem_singleton] at hp
      subst hp
      norm_num)⟩

/-- C6: a nonpositive duration runs zero integration steps and leaves every
particle's position unchanged, in both strategies (for the batch strategy,
on a fresh simulator the write-back copies the just-created arrays straight
back); a supported no-op, not an error. -/
theorem evolve_nonpositive_noop (ps : List Particle) (dt : ℚ) (hdt : dt ≤ 0) :
    evolve_python ps dt = ps
      ∧ (evolve_numpy ⟨ps, none⟩ dt).particles = ps := by
  have h0 : nstepsOf dt = 0 := nstepsOf_nonpos dt hdt
  constructor
  · rw [evolve_python, h0, Function.iterate_zero_apply]
  · show List.zipWith _ ps ((numpyStep _)^[nstepsOf dt] (positionsOf ps)) = ps
    rw [h0, Function.iterate_zero_apply, writeback_self]

/-- Witness for C6: one particle, duration `-1`. -/
theorem evolve_nonpositive_noop_witness :
    ((-1 : ℚ) ≤ 0)
      ∧ (evolve_python [Particle.mk 1 0 1] (-1) = [Particle.mk 1 0 1]
          ∧ (evolve_numpy ⟨[Particle.mk 1 0 1], none⟩ (-1)).particles
              = [Particle.mk 1 0 1]) :=
  ⟨by norm_num, evolve_nonpositive_noop [Particle.mk 1 0 1] (-1) (by norm_num)⟩

/-- C9: `evolve_numpy` caches the position/angular-velocity arrays on the
first call (first conjunct), and afterwards computes exclusively from the
cached arrays: with a cache present, any change to the particle records
(same count, arbitrary new `x`, `y`, `ang_vel` values — here an arbitrary
replacement list `qs`) leaves the computed and written-back positions
exactly those that the unmutated records would have produced. -/
theorem evolve_numpy_cached_ignores_particles (ps qs : List Particle)
    (r : List (ℝ × ℝ)) (w : List ℝ) (dt1 dt2 : ℚ)
    (hlen : qs.length = ps.length)
    (hr : r.length = ps.length) (hw : w.length = ps.length) :
    (evolve_numpy ⟨ps, none⟩ dt1).cache
        = some ((numpyStep (ps.map (fun p => p.ang_vel)))^[nstepsOf dt1]
            (positionsOf ps), ps.map (fun p => p.ang_vel))
      ∧ positionsOf ((evolve_numpy ⟨qs, some (r, w)⟩ dt2).particles)
          = positionsOf ((evolve_numpy ⟨ps, some (r, w)⟩ dt2).particles) := by
  have hfinal : ((numpyStep w)^[nstepsOf dt2] r).length = ps.length :=
    numpyStep_iterate_length w ps.length hw _ r hr
  constructor
  · rfl
  · show positionsOf (List.zipWith _ qs ((numpyStep w)^[nstepsOf dt2] r))
        = positionsOf (List.zipWith _ ps ((numpyStep w)^[nstepsOf dt2] r))
    rw [positionsOf_writeback qs _ (by omega), positionsOf_writeback ps _ (by omega)]

/-- Witness for C9: cache `r = [(1, 0)]`, `w = [5]` on a one-particle
simulator; the mutated record `qs` differs in all three fields. -/
theorem evolve_numpy_cached_ignores_particles_witness :
    ([Particle.mk 2 3 4].length = [Particle.mk 1 0 1].length)
      ∧ ([((1:ℝ), (0:ℝ))].length = [Particle.mk 1 0 1].length)
      ∧ ([(5:ℝ)].length = [Particle.mk 1 0 1].length)
      ∧ ((evolve_numpy ⟨[Particle.mk 1 0 1], none⟩ 0).cache
            = some ((numpyStep ([Particle.mk 1 0 1].map (fun p => p.ang_vel)))^[nstepsOf 0]
                (positionsOf [Particle.mk 1 0 1]),
                [Particle.mk 1 0 1].map (fun p => p.ang_vel))
          ∧ positionsOf ((evolve_numpy ⟨[Particle.mk 2 3 4],
                some ([((1:ℝ), (0:ℝ))], [(5:ℝ)])⟩ (1/10)).particles)
              = positionsOf ((evolve_numpy ⟨[Particle.mk 1 0 1],
                  some ([((1:ℝ), (0:ℝ))], [(5:ℝ)])⟩ (1/10)).particles)) :=
  ⟨rfl, rfl, rfl,
    evolve_numpy_cached_ignores_particles [Particle.mk 1 0 1] [Particle.mk 2 3 4]
      [((1:ℝ), (0:ℝ))] [(5:ℝ)] 0 (1/10) rfl rfl rfl⟩

/-! ## Verified evaluation of the reference particle scenario

To settle the numeric regression oracle of `test_evolve` we bound the exact
real trajectory of `pstep` by dyadic interval arithmetic: an interval is a
pair `(lo, hi) : ℤ × ℤ` standing for `[lo / 2^40, hi / 2^40]`.  Two exact
facts about the update make this cheap:

* one `pstep` is multiplication of `(x, y)`, viewed as a complex number,
  by `1 + i·β` with `β = ang_vel / (100000 · norm)`;
* the squared norm grows by exactly `(ang_vel / 100000)^2` per step.

So the squared norm along any block of `2^j` steps is known in advance, the
per-step multiplier stays inside one small interval complex number `C`, and
the whole block is enclosed by `C^(2^j)`, computed with `j` interval
squarings.  10000 steps are covered by blocks of `2^9, …, 2^9, 2^8, 2^4`. -/

/-- The dyadic scale `2^40` of the interval endpoints. -/
def SC : ℤ := 2 ^ 40

/-- Ceiling division (`/` on `ℤ` is floor division, i.e. `Int.ediv`). -/
def cdivZ (a b : ℤ) : ℤ := -((-a) / b)

/-- `t` lies in the dyadic interval `I`: `I.1 ≤ t * 2^40 ≤ I.2`. -/
def memI (t : ℝ) (I : ℤ × ℤ) : Prop :=
  (I.1 : ℝ) ≤ t * (SC : ℝ) ∧ t * (SC : ℝ) ≤ (I.2 : ℝ)

/-- Interval addition (exact at fixed scale). -/
def addI (A B : ℤ × ℤ) : ℤ × ℤ := (A.1 + B.1, A.2 + B.2)

/-- Interval subtraction (exact at fixed scale). -/
def subI (A B : ℤ × ℤ) : ℤ × ℤ := (A.1 - B.2, A.2 - B.1)

/-- Interval square, producing a (scaled) interval for `t ^ 2`. -/
def sqI (A : ℤ × ℤ) : ℤ × ℤ :=
  ((if 0 ≤ A.1 then A.1 * A.1 else if A.2 ≤ 0 then A.2 * A.2 else 0) / SC,
    cdivZ (max (A.1 * A.1) (A.2 * A.2)) SC)

/-- General interval multiplication (four endpoint products, rescaled). -/
def mulI (A B : ℤ × ℤ) : ℤ × ℤ :=
  (min (min (A.1 * B.1) (A.1 * B.2)) (min (A.2 * B.1) (A.2 * B.2)) / SC,
    cdivZ (max (max (A.1 * B.1) (A.1 * B.2)) (max (A.2 * B.1) (A.2 * B.2))) SC)

/-- Structural integer square root: `sqrtAux k n` is exact for `n < 4^k`
and always a lower approximation.  (Defined by structural recursion so that
the kernel can evaluate it; `Nat.sqrt` is well-founded and cannot be
reduced by `decide`.) -/
def sqrtAux : ℕ → ℕ → ℕ
  | 0, _ => 0
  | k + 1, n =>
    let s := sqrtAux k (n / 4)
    if (2 * s + 1) * (2 * s + 1) ≤ n then 2 * s + 1 else 2 * s

/-- Integer square root with 64 digit-pairs (exact for `n < 4^64`). -/
def sqrtN (n : ℕ) : ℕ := sqrtAux 64 n

/-- Interval for `β = om / (100000 · r)` from an interval `R` for `r * SC`
(positive denominators). -/
def betaI (om : ℤ) (R : ℤ × ℤ) : ℤ × ℤ :=
  (min ((om * SC * SC) / (100000 * R.1)) ((om * SC * SC) / (100000 * R.2)),
    max (cdivZ (om * SC * SC) (100000 * R.1)) (cdivZ (om * SC * SC) (100000 * R.2)))

/-- Interval complex number: (real-part interval, imaginary-part interval). -/
abbrev CII : Type := (ℤ × ℤ) × (ℤ × ℤ)

/-- Interval complex multiplication. -/
def cmulCI (P Q : CII) : CII :=
  (subI (mulI P.1 Q.1) (mulI P.2 Q.2), addI (mulI P.1 Q.2) (mulI P.2 Q.1))

/-- Real complex multiplication on coordinate pairs. -/
def cmulR (a b : ℝ × ℝ) : ℝ × ℝ :=
  (a.1 * b.1 - a.2 * b.2, a.1 * b.2 + a.2 * b.1)

/-- Membership of a real pair in an interval complex number. -/
def memC (z : ℝ × ℝ) (P : CII) : Prop := memI z.1 P.1 ∧ memI z.2 P.2

/-- One verified block of `2^j` scalar steps: from interval state
`s = (X, Y)`, bound the squared norm over the whole block (initial interval
plus the exact growth `2^j · om² / 10^10`, outward rounded as `GW`), enclose
the per-step multiplier `1 + i·β` in `C`, raise it to `2^j` by `j` interval
squarings, and apply it to the state.  The guard rejects a nonpositive norm
lower bound, a square-root input out of the exact range of `sqrtN`, and
(as a strictness device that always holds for sound intervals) unordered
output endpoints. -/
def chunkC (om : ℤ) (j : ℕ) (s : (ℤ × ℤ) × (ℤ × ℤ)) :
    Option ((ℤ × ℤ) × (ℤ × ℤ)) :=
  let S := addI (sqI s.1) (sqI s.2)
  let GW := cdivZ (2 ^ j * om * om * SC * SC) (10 ^ 10)
  let Rlo : ℤ := (sqrtN (S.1.toNat * SC.toNat) : ℕ)
  let Rhi : ℤ := (sqrtN ((S.2 * SC + GW).toNat) : ℕ) + 1
  let P := (fun Q => cmulCI Q Q)^[j] ((SC, SC), betaI om (Rlo, Rhi))
  let X2 := subI (mulI P.1 s.1) (mulI P.2 s.2)
  let Y2 := addI (mulI P.1 s.2) (mulI P.2 s.1)
  if 0 < Rlo ∧ S.2 * SC + GW < 4 ^ 64 ∧ X2.1 ≤ X2.2 ∧ Y2.1 ≤ Y2.2 then
    some (X2, Y2)
  else none

/-- Run a list of verified blocks (`none` as soon as one fails). -/
def runCh (om : ℤ) : List ℕ → (ℤ × ℤ) × (ℤ × ℤ) → Option ((ℤ × ℤ) × (ℤ × ℤ))
  | [], s => some s
  | j :: js, s =>
    match chunkC om j s with
    | none => none
    | some s2 => runCh om js s2

/-- Boolean certificate: the block run succeeds and the final intervals lie
inside the target bands `tx`, `ty`. -/
def checkRun (om : ℤ) (js : List ℕ) (s : (ℤ × ℤ) × (ℤ × ℤ)) (tx ty : ℤ × ℤ) : Bool :=
  match runCh om js s with
  | none => false
  | some F => decide (tx.1 ≤ F.1.1 ∧ F.1.2 ≤ tx.2 ∧ ty.1 ≤ F.2.1 ∧ F.2.2 ≤ ty.2)

/-- Floor division times the (positive) divisor is at most the dividend. -/
theorem ediv_mul_le_real (a b : ℤ) (hb : 0 < b) :
    ((a / b : ℤ) : ℝ) * (b : ℝ) ≤ (a : ℝ) := by
  have h := Int.ediv_add_emod a b
  have hm : 0 ≤ a % b := Int.emod_nonneg a (by omega)
  have : (a / b) * b ≤ a := by linarith
  exact_mod_cast this

/-- The dividend is below floor division plus one, times the divisor. -/
theorem real_lt_ediv_add_one_mul (a b : ℤ) (hb : 0 < b) :
    (a : ℝ) < (((a / b : ℤ) : ℝ) + 1) * (b : ℝ) := by
  have h := Int.ediv_add_emod a b
  have hm : a % b < b := Int.emod_lt_of_pos a hb
  have : a < (a / b + 1) * b := by nlinarith
  exact_mod_cast this

/-- Ceiling division times the (positive) divisor is at least the dividend. -/
theorem le_cdivZ_mul_real (a b : ℤ) (hb : 0 < b) :
    (a : ℝ) ≤ ((cdivZ a b : ℤ) : ℝ) * (b : ℝ) := by
  have h := ediv_mul_le_real (-a) b hb
  have : ((cdivZ a b : ℤ) : ℝ) = -(((-a) / b : ℤ) : ℝ) := by
    rw [cdivZ]; push_cast; ring
  rw [this]
  push_cast at h ⊢
  linarith

/-- Floor division is below the real quotient (positive divisor). -/
theorem ediv_le_real_div (a b : ℤ) (hb : 0 < b) :
    ((a / b : ℤ) : ℝ) ≤ (a : ℝ) / (b : ℝ) := by
  have h := ediv_mul_le_real a b hb
  have hbR : (0:ℝ) < b := by exact_mod_cast hb
  exact (le_div_iff hbR).mpr h

/-- The real quotient is below ceiling division (positive divisor). -/
theorem real_div_le_cdivZ (a b : ℤ) (hb : 0 < b) :
    (a : ℝ) / (b : ℝ) ≤ ((cdivZ a b : ℤ) : ℝ) := by
  have h := le_cdivZ_mul_real a b hb
  have hbR : (0:ℝ) < b := by exact_mod_cast hb
  exact (div_le_iff hbR).mpr h

theorem SC_posR : (0:ℝ) < ((SC : ℤ) : ℝ) := by norm_num [SC]

theorem SC_posZ : (0:ℤ) < SC := by norm_num [SC]

/-- Interval addition is sound. -/
theorem memI_add {t u : ℝ} {A B : ℤ × ℤ} (ht : memI t A) (hu : memI u B) :
    memI (t + u) (addI A B) := by
  obtain ⟨h1, h2⟩ := ht
  obtain ⟨h3, h4⟩ := hu
  unfold memI addI at *
  push_cast
  constructor <;> nlinarith [h1, h2, h3, h4]

/-- Interval subtraction is sound. -/
theorem memI_sub {t u : ℝ} {A B : ℤ × ℤ} (ht : memI t A) (hu : memI u B) :
    memI (t - u) (subI A B) := by
  obtain ⟨h1, h2⟩ := ht
  obtain ⟨h3, h4⟩ := hu
  unfold memI subI at *
  push_cast
  constructor <;> nlinarith [h1, h2, h3, h4]

/-- Interval squaring is sound. -/
theorem memI_sq {t : ℝ} {A : ℤ × ℤ} (ht : memI t A) : memI (t ^ 2) (sqI A) := by
  obtain ⟨h1, h2⟩ := ht
  have hSC := SC_posR
  have hSCZ := SC_posZ
  constructor
  · show ((((if 0 ≤ A.1 then A.1 * A.1 else if A.2 ≤ 0 then A.2 * A.2 else 0) / SC : ℤ)) : ℝ)
        ≤ t ^ 2 * SC
    have hm : ((if 0 ≤ A.1 then A.1 * A.1 else if A.2 ≤ 0 then A.2 * A.2 else 0 : ℤ) : ℝ)
        ≤ (t * SC) ^ 2 := by
      split_ifs with ha hb
      · have haR : (0:ℝ) ≤ (A.1 : ℝ) := by exact_mod_cast ha
        push_cast
        nlinarith [h1, haR]
      · have hbR : ((A.2 : ℝ)) ≤ 0 := by exact_mod_cast hb
        push_cast
        nlinarith [h2, hbR]
      · push_cast
        positivity
    have hdiv := ediv_mul_le_real
      (if 0 ≤ A.1 then A.1 * A.1 else if A.2 ≤ 0 then A.2 * A.2 else 0) SC SC_posZ
    have : ((((if 0 ≤ A.1 then A.1 * A.1 else if A.2 ≤ 0 then A.2 * A.2 else 0) / SC : ℤ)) : ℝ)
        * SC ≤ (t * SC) ^ 2 := le_trans hdiv hm
    nlinarith [this, hSC]
  · show t ^ 2 * SC ≤ ((cdivZ (max (A.1 * A.1) (A.2 * A.2)) SC : ℤ) : ℝ)
    have hmax : (t * SC) ^ 2 ≤ ((max (A.1 * A.1) (A.2 * A.2) : ℤ) : ℝ) := by
      rcases le_total 0 (t * (SC:ℝ)) with hts | hts
      · have : (t * SC) ^ 2 ≤ ((A.2 : ℝ)) ^ 2 := by nlinarith [h2, hts]
        have h22 : ((A.2 : ℝ)) ^ 2 ≤ ((max (A.1 * A.1) (A.2 * A.2) : ℤ) : ℝ) := by
          have : (A.2 * A.2 : ℤ) ≤ max (A.1 * A.1) (A.2 * A.2) := le_max_right _ _
          have h3 : ((A.2 * A.2 : ℤ) : ℝ) ≤ ((max (A.1 * A.1) (A.2 * A.2) : ℤ) : ℝ) := by
            exact_mod_cast this
          push_cast at h3 ⊢
          nlinarith [h3]
        linarith
      · have : (t * SC) ^ 2 ≤ ((A.1 : ℝ)) ^ 2 := by nlinarith [h1, hts]
        have h22 : ((A.1 : ℝ)) ^ 2 ≤ ((max (A.1 * A.1) (A.2 * A.2) : ℤ) : ℝ) := by
          have : (A.1 * A.1 : ℤ) ≤ max (A.1 * A.1) (A.2 * A.2) := le_max_left _ _
          have h3 : ((A.1 * A.1 : ℤ) : ℝ) ≤ ((max (A.1 * A.1) (A.2 * A.2) : ℤ) : ℝ) := by
            exact_mod_cast this
          push_cast at h3 ⊢
          nlinarith [h3]
        linarith
    have hcd := le_cdivZ_mul_real (max (A.1 * A.1) (A.2 * A.2)) SC SC_posZ
    nlinarith [hmax, hcd, hSC]

/-- General interval multiplication is sound. -/
theorem memI_mul {t u : ℝ} {A B : ℤ × ℤ} (ht : memI t A) (hu : memI u B) :
    memI (t * u) (mulI A B) := by
  obtain ⟨ha1, ha2⟩ := ht
  obtain ⟨hb1, hb2⟩ := hu
  have hSC := SC_posR
  have key_lo : ((min (min (A.1 * B.1) (A.1 * B.2)) (min (A.2 * B.1) (A.2 * B.2)) : ℤ) : ℝ)
      ≤ (t * SC) * (u * SC) := by
    have m1 : ((min (min (A.1 * B.1) (A.1 * B.2)) (min (A.2 * B.1) (A.2 * B.2)) : ℤ) : ℝ)
        ≤ ((A.1 : ℝ)) * B.1 := by
      have : (min (min (A.1 * B.1) (A.1 * B.2)) (min (A.2 * B.1) (A.2 * B.2)) : ℤ)
          ≤ A.1 * B.1 := le_trans (min_le_left _ _) (min_le_left _ _)
      exact_mod_cast this
    have m2 : ((min (min (A.1 * B.1) (A.1 * B.2)) (min (A.2 * B.1) (A.2 * B.2)) : ℤ) : ℝ)
        ≤ ((A.1 : ℝ)) * B.2 := by
      have : (min (min (A.1 * B.1) (A.1 * B.2)) (min (A.2 * B.1) (A.2 * B.2)) : ℤ)
          ≤ A.1 * B.2 := le_trans (min_le_left _ _) (min_le_right _ _)
      exact_mod_cast this
    have m3 : ((min (min (A.1 * B.1) (A.1 * B.2)) (min (A.2 * B.1) (A.2 * B.2)) : ℤ) : ℝ)
        ≤ ((A.2 : ℝ)) * B.1 := by
      have : (min (min (A.1 * B.1) (A.1 * B.2)) (min (A.2 * B.1) (A.2 * B.2)) : ℤ)
          ≤ A.2 * B.1 := le_trans (min_le_right _ _) (min_le_left _ _)
      exact_mod_cast this
    have m4 : ((min (min (A.1 * B.1) (A.1 * B.2)) (min (A.2 * B.1) (A.2 * B.2)) : ℤ) : ℝ)
        ≤ ((A.2 : ℝ)) * B.2 := by
      have : (min (min (A.1 * B.1) (A.1 * B.2)) (min (A.2 * B.1) (A.2 * B.2)) : ℤ)
          ≤ A.2 * B.2 := le_trans (min_le_right _ _) (min_le_right _ _)
      exact_mod_cast this
    rcases le_total 0 (u * (SC:ℝ)) with hU | hU
    · have h1 : ((A.1:ℝ)) * (u * SC) ≤ (t * SC) * (u * SC) :=
        mul_le_mul_of_nonneg_right ha1 hU
      rcases le_total 0 ((A.1:ℝ)) with hA | hA
      · have h2 : ((A.1:ℝ)) * B.1 ≤ ((A.1:ℝ)) * (u * SC) :=
          mul_le_mul_of_nonneg_left hb1 hA
        linarith
      · have h2 : ((A.1:ℝ)) * B.2 ≤ ((A.1:ℝ)) * (u * SC) :=
          mul_le_mul_of_nonpos_left hb2 hA
        linarith
    · have h1 : ((A.2:ℝ)) * (u * SC) ≤ (t * SC) * (u * SC) :=
        mul_le_mul_of_nonpos_right ha2 hU
      rcases le_total 0 ((A.2:ℝ)) with hA | hA
      · have h2 : ((A.2:ℝ)) * B.1 ≤ ((A.2:ℝ)) * (u * SC) :=
          mul_le_mul_of_nonneg_left hb1 hA
        linarith
      · have h2 : ((A.2:ℝ)) * B.2 ≤ ((A.2:ℝ)) * (u * SC) :=
          mul_le_mul_of_nonpos_left hb2 hA
        linarith
  have key_hi : (t * SC) * (u * SC)
      ≤ ((max (max (A.1 * B.1) (A.1 * B.2)) (max (A.2 * B.1) (A.2 * B.2)) : ℤ) : ℝ) := by
    have m1 : ((A.1 : ℝ)) * B.1
        ≤ ((max (max (A.1 * B.1) (A.1 * B.2)) (max (A.2 * B.1) (A.2 * B.2)) : ℤ) : ℝ) := by
      have : (A.1 * B.1 : ℤ)
          ≤ max (max (A.1 * B.1) (A.1 * B.2)) (max (A.2 * B.1) (A.2 * B.2)) :=
        le_trans (le_max_left _ _) (le_max_left _ _)
      exact_mod_cast this
    have m2 : ((A.1 : ℝ)) * B.2
        ≤ ((max (max (A.1 * B.1) (A.1 * B.2)) (max (A.2 * B.1) (A.2 * B.2)) : ℤ) : ℝ) := by
      have : (A.1 * B.2 : ℤ)
          ≤ max (max (A.1 * B.1) (A.1 * B.2)) (max (A.2 * B.1) (A.2 * B.2)) :=
        le_trans (le_max_right _ _) (le_max_left _ _)
      exact_mod_cast this
    have m3 : ((A.2 : ℝ)) * B.1
        ≤ ((max (max (A.1 * B.1) (A.1 * B.2)) (max (A.2 * B.1) (A.2 * B.2)) : ℤ) : ℝ) := by
      have : (A.2 * B.1 : ℤ)
          ≤ max (max (A.1 * B.1) (A.1 * B.2)) (max (A.2 * B.1) (A.2 * B.2)) :=
        le_trans (le_max_left _ _) (le_max_right _ _)
      exact_mod_cast this
    have m4 : ((A.2 : ℝ)) * B.2
        ≤ ((max (max (A.1 * B.1) (A.1 * B.2)) (max (A.2 * B.1) (A.2 * B.2)) : ℤ) : ℝ) := by
      have : (A.2 * B.2 : ℤ)
          ≤ max (max (A.1 * B.1) (A.1 * B.2)) (max (A.2 * B.1) (A.2 * B.2)) :=
        le_trans (le_max_right _ _) (le_max_right _ _)
      exact_mod_cast this
    rcases le_total 0 (u * (SC:ℝ)) with hU | hU
    · have h1 : (t * SC) * (u * SC) ≤ ((A.2:ℝ)) * (u * SC) :=
        mul_le_mul_of_nonneg_right ha2 hU
      rcases le_total 0 ((A.2:ℝ)) with hA | hA
      · have h2 : ((A.2:ℝ)) * (u * SC) ≤ ((A.2:ℝ)) * B.2 :=
          mul_le_mul_of_nonneg_left hb2 hA
        linarith
      · have h2 : ((A.2:ℝ)) * (u * SC) ≤ ((A.2:ℝ)) * B.1 :=
          mul_le_mul_of_nonpos_left hb1 hA
        linarith
    · have h1 : (t * SC) * (u * SC) ≤ ((A.1:ℝ)) * (u * SC) :=
        mul_le_mul_of_nonpos_right ha1 hU
      rcases le_total 0 ((A.1:ℝ)) with hA | hA
      · have h2 : ((A.1:ℝ)) * (u * SC) ≤ ((A.1:ℝ)) * B.2 :=
          mul_le_mul_of_nonneg_left hb2 hA
        linarith
      · have h2 : ((A.1:ℝ)) * (u * SC) ≤ ((A.1:ℝ)) * B.1 :=
          mul_le_mul_of_nonpos_left hb1 hA
        linarith
  constructor
  · show ((_ / SC : ℤ) : ℝ) ≤ (t * u) * SC
    have hdiv := ediv_mul_le_real
      (min (min (A.1 * B.1) (A.1 * B.2)) (min (A.2 * B.1) (A.2 * B.2))) SC SC_posZ
    nlinarith [le_trans hdiv key_lo, hSC]
  · show (t * u) * SC ≤ ((cdivZ _ SC : ℤ) : ℝ)
    have hcd := le_cdivZ_mul_real
      (max (max (A.1 * B.1) (A.1 * B.2)) (max (A.2 * B.1) (A.2 * B.2))) SC SC_posZ
    nlinarith [le_trans key_hi hcd, hSC]

/-- `sqrtAux` is always a lower approximation of the square root. -/
theorem sqrtAux_sq_le : ∀ (k n : ℕ), sqrtAux k n * sqrtAux k n ≤ n := by
  intro k
  induction k with
  | zero => intro n; simp [sqrtAux]
  | succ k ih =>
    intro n
    rw [show sqrtAux (k + 1) n
        = if (2 * sqrtAux k (n / 4) + 1) * (2 * sqrtAux k (n / 4) + 1) ≤ n then
            2 * sqrtAux k (n / 4) + 1
          else 2 * sqrtAux k (n / 4) from rfl]
    split_ifs with h
    · exact h
    · have hs := ih (n / 4)
      have h4 : n / 4 * 4 ≤ n := Nat.div_mul_le_self n 4
      calc (2 * sqrtAux k (n / 4)) * (2 * sqrtAux k (n / 4))
          = 4 * (sqrtAux k (n / 4) * sqrtAux k (n / 4)) := by ring
        _ ≤ 4 * (n / 4) := Nat.mul_le_mul_left 4 hs
        _ ≤ n := by omega

/-- `sqrtAux k` is an exact integer square root for `n < 4^k`. -/
theorem lt_sqrtAux_add_one_sq : ∀ (k n : ℕ), n < 4 ^ k →
    n < (sqrtAux k n + 1) * (sqrtAux k n + 1) := by
  intro k
  induction k with
  | zero =>
    intro n h
    simp only [pow_zero] at h
    interval_cases n
    simp [sqrtAux]
  | succ k ih =>
    intro n h
    have hdiv : n / 4 < 4 ^ k := by
      rw [Nat.div_lt_iff_lt_mul (by norm_num)]
      calc n < 4 ^ (k + 1) := h
        _ = 4 ^ k * 4 := by ring
    have hk := ih (n / 4) hdiv
    rw [show sqrtAux (k + 1) n
        = if (2 * sqrtAux k (n / 4) + 1) * (2 * sqrtAux k (n / 4) + 1) ≤ n then
            2 * sqrtAux k (n / 4) + 1
          else 2 * sqrtAux k (n / 4) from rfl]
    split_ifs with hcase
    · have hmod : n < 4 * (n / 4) + 4 := by omega
      nlinarith [hk, hmod]
    · exact Nat.lt_of_not_le hcase

/-- The interval for `β = om / (100000 · r)` is sound. -/
theorem memI_beta (om : ℤ) {r : ℝ} {R : ℤ × ℤ} (hr : memI r R)
    (hR1 : 0 < R.1) (hrpos : 0 < r) :
    memI ((om : ℝ) / (100000 * r)) (betaI om R) := by
  obtain ⟨hc1, hc2⟩ := hr
  have hSC := SC_posR
  have hy : (0:ℝ) < r * SC := by positivity
  have hR1R : (0:ℝ) < (R.1:ℝ) := by exact_mod_cast hR1
  have hR2R : (0:ℝ) < (R.2:ℝ) := lt_of_lt_of_le hy hc2
  have hD1 : (0:ℤ) < 100000 * R.1 := by positivity
  have hD2 : (0:ℤ) < 100000 * R.2 := by
    have : (0:ℤ) < R.2 := by exact_mod_cast hR2R
    positivity
  have hDr : (0:ℝ) < 100000 * (r * SC) := by positivity
  have hD1R : (0:ℝ) < ((100000 * R.1 : ℤ) : ℝ) := by exact_mod_cast hD1
  have hD2R : (0:ℝ) < ((100000 * R.2 : ℤ) : ℝ) := by exact_mod_cast hD2
  have hDle1 : ((100000 * R.1 : ℤ) : ℝ) ≤ 100000 * (r * SC) := by
    push_cast
    nlinarith [hc1]
  have hDle2 : 100000 * (r * SC) ≤ ((100000 * R.2 : ℤ) : ℝ) := by
    push_cast
    nlinarith [hc2]
  have hr0 : r ≠ 0 := ne_of_gt hrpos
  have hq : ((om : ℝ) / (100000 * r)) * SC
      = ((om : ℝ) * SC * SC) / (100000 * (r * SC)) := by
    field_simp
    ring
  constructor
  · show ((min ((om * SC * SC) / (100000 * R.1)) ((om * SC * SC) / (100000 * R.2)) : ℤ) : ℝ)
        ≤ ((om : ℝ) / (100000 * r)) * SC
    rw [hq]
    rcases le_total 0 om with hom | hom
    · have hN : (0:ℝ) ≤ ((om * SC * SC : ℤ) : ℝ) := by
        push_cast
        have : (0:ℝ) ≤ (om:ℝ) := by exact_mod_cast hom
        exact mul_nonneg (mul_nonneg this hSC.le) hSC.le
      have e1 : (((om * SC * SC) / (100000 * R.2) : ℤ) : ℝ)
          ≤ ((om * SC * SC : ℤ) : ℝ) / ((100000 * R.2 : ℤ) : ℝ) := ediv_le_real_div _ _ hD2
      have e2 : ((om * SC * SC : ℤ) : ℝ) / ((100000 * R.2 : ℤ) : ℝ)
          ≤ ((om : ℝ) * SC * SC) / (100000 * (r * SC)) := by
        rw [div_le_div_iff hD2R hDr]
        push_cast
        push_cast at hN hDle2
        nlinarith [hN, hDle2, hDr]
      have hmin : ((min ((om * SC * SC) / (100000 * R.1)) ((om * SC * SC) / (100000 * R.2)) : ℤ) : ℝ)
          ≤ (((om * SC * SC) / (100000 * R.2) : ℤ) : ℝ) := by exact_mod_cast min_le_right _ _
      linarith
    · have hN : ((om * SC * SC : ℤ) : ℝ) ≤ 0 := by
        push_cast
        have : ((om:ℝ)) ≤ 0 := by exact_mod_cast hom
        nlinarith [mul_nonneg (mul_nonneg (neg_nonneg.mpr this) hSC.le) hSC.le]
      have e1 : (((om * SC * SC) / (100000 * R.1) : ℤ) : ℝ)
          ≤ ((om * SC * SC : ℤ) : ℝ) / ((100000 * R.1 : ℤ) : ℝ) := ediv_le_real_div _ _ hD1
      have e2 : ((om * SC * SC : ℤ) : ℝ) / ((100000 * R.1 : ℤ) : ℝ)
          ≤ ((om : ℝ) * SC * SC) / (100000 * (r * SC)) := by
        rw [div_le_div_iff hD1R hDr]
        push_cast
        push_cast at hN hDle1
        nlinarith [hN, hDle1, hDr, hD1R]
      have hmin : ((min ((om * SC * SC) / (100000 * R.1)) ((om * SC * SC) / (100000 * R.2)) : ℤ) : ℝ)
          ≤ (((om * SC * SC) / (100000 * R.1) : ℤ) : ℝ) := by exact_mod_cast min_le_left _ _
      linarith
  · show ((om : ℝ) / (100000 * r)) * SC
        ≤ ((max (cdivZ (om * SC * SC) (100000 * R.1)) (cdivZ (om * SC * SC) (100000 * R.2)) : ℤ) : ℝ)
    rw [hq]
    rcases le_total 0 om with hom | hom
    · have hN : (0:ℝ) ≤ ((om * SC * SC : ℤ) : ℝ) := by
        push_cast
        have : (0:ℝ) ≤ (om:ℝ) := by exact_mod_cast hom
        exact mul_nonneg (mul_nonneg this hSC.le) hSC.le
      have e1 : ((om * SC * SC : ℤ) : ℝ) / ((100000 * R.1 : ℤ) : ℝ)
          ≤ ((cdivZ (om * SC * SC) (100000 * R.1) : ℤ) : ℝ) := real_div_le_cdivZ _ _ hD1
      have e2 : ((om : ℝ) * SC * SC) / (100000 * (r * SC))
          ≤ ((om * SC * SC : ℤ) : ℝ) / ((100000 * R.1 : ℤ) : ℝ) := by
        rw [div_le_div_iff hDr hD1R]
        push_cast
        push_cast at hN hDle1
        nlinarith [hN, hDle1, hDr, hD1R]
      have hmax : (((cdivZ (om * SC * SC) (100000 * R.1)) : ℤ) : ℝ)
          ≤ ((max (cdivZ (om * SC * SC) (100000 * R.1)) (cdivZ (om * SC * SC) (100000 * R.2)) : ℤ) : ℝ) := by
        exact_mod_cast le_max_left _ _
      linarith
    · have hN : ((om * SC * SC : ℤ) : ℝ) ≤ 0 := by
        push_cast
        have : ((om:ℝ)) ≤ 0 := by exact_mod_cast hom
        nlinarith [mul_nonneg (mul_nonneg (neg_nonneg.mpr this) hSC.le) hSC.le]
      have e1 : ((om * SC * SC : ℤ) : ℝ) / ((100000 * R.2 : ℤ) : ℝ)
          ≤ ((cdivZ (om * SC * SC) (100000 * R.2) : ℤ) : ℝ) := real_div_le_cdivZ _ _ hD2
      have e2 : ((om : ℝ) * SC * SC) / (100000 * (r * SC))
          ≤ ((om * SC * SC : ℤ) : ℝ) / ((100000 * R.2 : ℤ) : ℝ) := by
        rw [div_le_div_iff hDr hD2R]
        push_cast
        push_cast at hN hDle2
        nlinarith [hN, hDle2, hDr, hD2R]
      have hmax : (((cdivZ (om * SC * SC) (100000 * R.2)) : ℤ) : ℝ)
          ≤ ((max (cdivZ (om * SC * SC) (100000 * R.1)) (cdivZ (om * SC * SC) (100000 * R.2)) : ℤ) : ℝ) := by
        exact_mod_cast le_max_right _ _
      linarith

/-- Interval complex multiplication is sound. -/
theorem memC_cmul {a b : ℝ × ℝ} {P Q : CII} (ha : memC a P) (hb : memC b Q) :
    memC (cmulR a b) (cmulCI P Q) :=
  ⟨memI_sub (memI_mul ha.1 hb.1) (memI_mul ha.2 hb.2),
    memI_add (memI_mul ha.1 hb.2) (memI_mul ha.2 hb.1)⟩

/-- The squared radius of a particle. -/
noncomputable def normSqP (p : Particle) : ℝ := p.x ^ 2 + p.y ^ 2

/-- One `pstep` is complex multiplication by `1 + i·β` with
`β = ang_vel / (100000 · norm)`. -/
theorem pstep_as_cmul (p : Particle) (h : 0 < normSqP p) :
    ((pstep p).x, (pstep p).y)
      = cmulR (1, p.ang_vel / (100000 * Real.sqrt (normSqP p))) (p.x, p.y) := by
  have hr : 0 < Real.sqrt (normSqP p) := Real.sqrt_pos.mpr h
  have hrne : Real.sqrt (normSqP p) ≠ 0 := ne_of_gt hr
  have hts : ((timestep : ℚ) : ℝ) = 1 / 100000 := by norm_num [timestep]
  have hx : (pstep p).x
      = p.x + 1 / 100000 * p.ang_vel * (-p.y / Real.sqrt (p.x ^ 2 + p.y ^ 2)) := by
    simp only [pstep]
    rw [hts]
  have hy : (pstep p).y
      = p.y + 1 / 100000 * p.ang_vel * (p.x / Real.sqrt (p.x ^ 2 + p.y ^ 2)) := by
    simp only [pstep]
    rw [hts]
  have hnormSq : Real.sqrt (p.x ^ 2 + p.y ^ 2) = Real.sqrt (normSqP p) := rfl
  apply Prod.ext
  · show (pstep p).x = _
    rw [hx, hnormSq, cmulR]
    show _ = 1 * p.x - p.ang_vel / (100000 * Real.sqrt (normSqP p)) * p.y
    field_simp
    try ring
  · show (pstep p).y = _
    rw [hy, hnormSq, cmulR]
    show _ = 1 * p.y + p.ang_vel / (100000 * Real.sqrt (normSqP p)) * p.x
    field_simp
    try ring

/-- The squared radius grows by exactly `(ang_vel / 100000)^2` per step. -/
theorem normSqP_pstep (p : Particle) (h : 0 < normSqP p) :
    normSqP (pstep p) = normSqP p + (p.ang_vel / 100000) ^ 2 := by
  have hr : 0 < Real.sqrt (normSqP p) := Real.sqrt_pos.mpr h
  have hrne : Real.sqrt (normSqP p) ≠ 0 := ne_of_gt hr
  have hr2 : Real.sqrt (normSqP p) ^ 2 = normSqP p := Real.sq_sqrt h.le
  have hcm := pstep_as_cmul p h
  have hx : (pstep p).x
      = (cmulR (1, p.ang_vel / (100000 * Real.sqrt (normSqP p))) (p.x, p.y)).1 :=
    congrArg Prod.fst hcm
  have hy : (pstep p).y
      = (cmulR (1, p.ang_vel / (100000 * Real.sqrt (normSqP p))) (p.x, p.y)).2 :=
    congrArg Prod.snd hcm
  have key : ∀ a b : ℝ × ℝ, (cmulR a b).1 ^ 2 + (cmulR a b).2 ^ 2
      = (a.1 ^ 2 + a.2 ^ 2) * (b.1 ^ 2 + b.2 ^ 2) := by
    intro a b
    simp only [cmulR]
    ring
  have hsplit : normSqP (pstep p)
      = (1 ^ 2 + (p.ang_vel / (100000 * Real.sqrt (normSqP p))) ^ 2)
        * (p.x ^ 2 + p.y ^ 2) := by
    show (pstep p).x ^ 2 + (pstep p).y ^ 2 = _
    rw [hx, hy]
    exact key _ _
  have hbeta : (p.ang_vel / (100000 * Real.sqrt (normSqP p))) ^ 2
        * (p.x ^ 2 + p.y ^ 2) = (p.ang_vel / 100000) ^ 2 := by
    have hs : normSqP p = p.x ^ 2 + p.y ^ 2 := rfl
    rw [div_pow, mul_pow, div_mul_eq_mul_div, ← hs, hr2]
    have hN : normSqP p ≠ 0 := ne_of_gt h
    field_simp
    try ring
  rw [hsplit]
  have hs : normSqP p = p.x ^ 2 + p.y ^ 2 := rfl
  rw [add_mul, one_pow, one_mul, hbeta, hs]

/-- `pstep` keeps the angular velocity across any number of steps. -/
theorem pstep_iterate_ang_vel (p : Particle) : ∀ k, (pstep^[k] p).ang_vel = p.ang_vel := by
  intro k
  induction k with
  | zero => rfl
  | succ k ih => rw [Function.iterate_succ_apply', pstep_ang_vel, ih]

/-- Closed form of the squared radius along the trajectory (positivity is
preserved as the growth term is nonnegative). -/
theorem normSqP_iterate (p : Particle) (h : 0 < normSqP p) :
    ∀ k, normSqP (pstep^[k] p) = normSqP p + k * (p.ang_vel / 100000) ^ 2
      ∧ 0 < normSqP (pstep^[k] p) := by
  intro k
  induction k with
  | zero =>
    constructor
    · simp
    · simpa using h
  | succ k ih =>
    obtain ⟨heq, hpos⟩ := ih
    constructor
    · rw [Function.iterate_succ_apply', normSqP_pstep _ hpos,
        pstep_iterate_ang_vel, heq]
      push_cast
      ring
    · rw [Function.iterate_succ_apply', normSqP_pstep _ hpos]
      have : (0:ℝ) ≤ ((pstep^[k] p).ang_vel / 100000) ^ 2 := by positivity
      linarith [this]

/-- Real complex multiplication is associative. -/
theorem cmulR_assoc (a b c : ℝ × ℝ) : cmulR a (cmulR b c) = cmulR (cmulR a b) c := by
  apply Prod.ext <;> (simp only [cmulR]; ring)

/-- The per-step multiplier of `pstep` at a particle. -/
noncomputable def stepBeta (p : Particle) : ℝ :=
  p.ang_vel / (100000 * Real.sqrt (normSqP p))

/-- If all `2^j` per-step multipliers along a trajectory lie in the interval
complex number `C`, then the whole block is complex multiplication by some
`Q` enclosed in `C` squared `j` times. -/
theorem pow_encl (C : CII) :
    ∀ (j : ℕ) (p : Particle),
      (∀ i, i < 2 ^ j → 0 < normSqP (pstep^[i] p)
        ∧ memC (1, stepBeta (pstep^[i] p)) C) →
      ∃ Q : ℝ × ℝ, memC Q ((fun T => cmulCI T T)^[j] C)
        ∧ ((pstep^[2 ^ j] p).x, (pstep^[2 ^ j] p).y) = cmulR Q (p.x, p.y) := by
  intro j
  induction j with
  | zero =>
    intro p h
    obtain ⟨hpos, hmem⟩ := h 0 (by norm_num)
    refine ⟨(1, stepBeta p), ?_, ?_⟩
    · simpa using hmem
    · simpa [stepBeta] using pstep_as_cmul p (by simpa using hpos)
  | succ j ih =>
    intro p h
    have hhalf : ∀ i, i < 2 ^ j → i < 2 ^ (j + 1) := by
      intro i hi
      have : (2:ℕ) ^ j ≤ 2 ^ (j + 1) := Nat.pow_le_pow_right (by norm_num) (by omega)
      omega
    obtain ⟨Q1, hQ1, hE1⟩ := ih p (fun i hi => h i (hhalf i hi))
    obtain ⟨Q2, hQ2, hE2⟩ := ih (pstep^[2 ^ j] p) (by
      intro i hi
      rw [← Function.iterate_add_apply]
      apply h
      have h2 : (2:ℕ) ^ (j + 1) = 2 ^ j + 2 ^ j := by ring
      omega)
    refine ⟨cmulR Q2 Q1, ?_, ?_⟩
    · rw [Function.iterate_succ_apply']
      exact memC_cmul hQ2 hQ1
    · have hsum : (2:ℕ) ^ (j + 1) = 2 ^ j + 2 ^ j := by ring
      rw [hsum, Function.iterate_add_apply, hE2, hE1, cmulR_assoc]

/-- `sqrtN` is a lower approximation of the square root. -/
theorem sqrtN_sq_le (n : ℕ) : sqrtN n * sqrtN n ≤ n := sqrtAux_sq_le 64 n

/-- `sqrtN` is exact below `4^64`. -/
theorem lt_sqrtN_add_one_sq (n : ℕ) (h : n < 4 ^ 64) :
    n < (sqrtN n + 1) * (sqrtN n + 1) := lt_sqrtAux_add_one_sq 64 n h

/-- Over a block of `2^j` steps, the square root of `s0 + k·(om/100000)^2`
stays inside the interval computed by `chunkC` from the initial squared-norm
interval `S` (lower endpoint via `sqrtN` of `S.1`, upper endpoint via
`sqrtN` of `S.2 * SC` plus the outward-rounded growth `GW`). -/
theorem chunk_norm_bounds (om : ℤ) (j : ℕ) {s0 : ℝ} {S : ℤ × ℤ}
    (hS : memI s0 S) (hs0 : 0 ≤ s0)
    (g2 : S.2 * SC + cdivZ (2 ^ j * om * om * SC * SC) (10 ^ 10) < 4 ^ 64)
    (k : ℕ) (hk : k ≤ 2 ^ j) :
    memI (Real.sqrt (s0 + k * ((om : ℝ) / 100000) ^ 2))
      (((sqrtN (S.1.toNat * SC.toNat) : ℕ) : ℤ),
       ((sqrtN ((S.2 * SC + cdivZ (2 ^ j * om * om * SC * SC) (10 ^ 10)).toNat) : ℕ) : ℤ) + 1) := by
  have hSC := SC_posR
  obtain ⟨h1, h2⟩ := hS
  set GWe : ℤ := cdivZ (2 ^ j * om * om * SC * SC) (10 ^ 10) with hGWdef
  set Mi : ℤ := S.2 * SC + GWe with hMidef
  set N1 : ℕ := S.1.toNat * SC.toNat with hN1def
  set sk : ℝ := s0 + k * ((om : ℝ) / 100000) ^ 2 with hskdef
  clear_value GWe Mi N1 sk
  have haa : (0:ℝ) ≤ ((om : ℝ) / 100000) ^ 2 := by positivity
  have hka : (0:ℝ) ≤ (k : ℝ) * ((om : ℝ) / 100000) ^ 2 := by positivity
  have hsk0 : 0 ≤ sk := by rw [hskdef]; linarith
  have hsklo : s0 ≤ sk := by rw [hskdef]; linarith
  have hskhi : sk ≤ s0 + 2 ^ j * ((om : ℝ) / 100000) ^ 2 := by
    rw [hskdef]
    have hkR : ((k:ℝ)) ≤ ((2:ℝ) ^ j) := by exact_mod_cast hk
    nlinarith [haa, hkR]
  have cSC : ((SC.toNat : ℕ) : ℝ) = ((SC : ℤ) : ℝ) := by
    exact_mod_cast Int.toNat_of_nonneg SC_posZ.le
  have hsqrtSC : Real.sqrt ((sk * SC) * SC) = Real.sqrt sk * SC := by
    rw [show (sk * (SC:ℝ)) * SC = sk * (SC * SC) by ring, Real.sqrt_mul hsk0,
      Real.sqrt_mul_self hSC.le]
  constructor
  · -- lower endpoint
    show (((sqrtN N1 : ℕ) : ℤ) : ℝ) ≤ Real.sqrt sk * SC
    have c1 : ((S.1.toNat : ℕ) : ℝ) ≤ s0 * SC := by
      rcases le_or_lt 0 S.1 with h | h
      · have hc : ((S.1.toNat : ℕ) : ℝ) = ((S.1 : ℤ) : ℝ) := by
          exact_mod_cast Int.toNat_of_nonneg h
        rw [hc]; exact h1
      · rw [Int.toNat_of_nonpos h.le]
        simpa using mul_nonneg hs0 hSC.le
    have hN1R : ((N1 : ℕ) : ℝ) = ((S.1.toNat : ℕ) : ℝ) * ((SC.toNat : ℕ) : ℝ) := by
      rw [hN1def]; push_cast; ring
    have hL : ((sqrtN N1 : ℕ) : ℝ) ≤ Real.sqrt ((N1 : ℕ) : ℝ) := by
      rw [Real.le_sqrt (Nat.cast_nonneg _) (Nat.cast_nonneg _)]
      have h2c := sqrtN_sq_le N1
      have : ((sqrtN N1 : ℕ) : ℝ) * ((sqrtN N1 : ℕ) : ℝ) ≤ ((N1 : ℕ) : ℝ) := by
        exact_mod_cast h2c
      rw [sq]
      exact this
    have hmono : Real.sqrt ((N1 : ℕ) : ℝ) ≤ Real.sqrt ((sk * SC) * SC) := by
      apply Real.sqrt_le_sqrt
      rw [hN1R, cSC]
      have s1 := mul_le_mul_of_nonneg_right c1 hSC.le
      have s2 := mul_le_mul_of_nonneg_right
        (mul_le_mul_of_nonneg_right hsklo hSC.le) hSC.le
      linarith
    rw [← hsqrtSC]
    push_cast
    push_cast at hL hmono
    linarith
  · -- upper endpoint
    show Real.sqrt sk * SC ≤ ((((sqrtN Mi.toNat : ℕ) : ℤ) + 1 : ℤ) : ℝ)
    have hGW : (2:ℝ) ^ j * ((om : ℝ) / 100000) ^ 2 * (((SC:ℤ):ℝ) * ((SC:ℤ):ℝ))
        ≤ ((GWe : ℤ) : ℝ) := by
      have hle := le_cdivZ_mul_real (2 ^ j * om * om * SC * SC) (10 ^ 10) (by norm_num)
      have key : (2:ℝ) ^ j * ((om : ℝ) / 100000) ^ 2 * (((SC:ℤ):ℝ) * ((SC:ℤ):ℝ))
          * ((10:ℝ) ^ 10) = ((2 ^ j * om * om * SC * SC : ℤ) : ℝ) := by
        push_cast
        field_simp
        ring
      have hle2 : ((2 ^ j * om * om * SC * SC : ℤ) : ℝ)
          ≤ ((GWe : ℤ) : ℝ) * ((10:ℝ) ^ 10) := by
        rw [hGWdef]
        push_cast at hle ⊢
        linarith [hle]
      nlinarith [key, hle2]
    have hMile : (sk * SC) * SC ≤ ((Mi : ℤ) : ℝ) := by
      rw [hMidef]
      push_cast
      have s2' := mul_le_mul_of_nonneg_right
        (mul_le_mul_of_nonneg_right hskhi hSC.le) hSC.le
      have s3 := mul_le_mul_of_nonneg_right h2 hSC.le
      push_cast at hGW
      have hexp : (s0 + 2 ^ j * ((om : ℝ) / 100000) ^ 2) * ((SC:ℤ):ℝ) * ((SC:ℤ):ℝ)
          = s0 * ((SC:ℤ):ℝ) * ((SC:ℤ):ℝ)
            + 2 ^ j * ((om : ℝ) / 100000) ^ 2 * (((SC:ℤ):ℝ) * ((SC:ℤ):ℝ)) := by
        ring
      rw [hexp] at s2'
      linarith [s2', s3, hGW]
    have hMinn : (0:ℤ) ≤ Mi := by
      have h0 : (0:ℝ) ≤ (sk * SC) * SC :=
        mul_nonneg (mul_nonneg hsk0 hSC.le) hSC.le
      have : (0:ℝ) ≤ ((Mi : ℤ) : ℝ) := le_trans h0 hMile
      exact_mod_cast this
    have hMic : ((Mi.toNat : ℕ) : ℝ) = ((Mi : ℤ) : ℝ) := by
      exact_mod_cast Int.toNat_of_nonneg hMinn
    have hMibound : Mi.toNat < 4 ^ 64 := by
      have hc : ((Mi.toNat : ℕ) : ℤ) = Mi := Int.toNat_of_nonneg hMinn
      have : ((Mi.toNat : ℕ) : ℤ) < 4 ^ 64 := by rw [hc]; exact g2
      exact_mod_cast this
    have hmono : Real.sqrt ((sk * SC) * SC) ≤ Real.sqrt ((Mi.toNat : ℕ) : ℝ) := by
      apply Real.sqrt_le_sqrt
      rw [hMic]
      exact hMile
    have hlt := lt_sqrtN_add_one_sq Mi.toNat hMibound
    generalize hQ : sqrtN Mi.toNat = Q at hlt ⊢
    have hltR : ((Mi.toNat : ℕ) : ℝ) < ((Q : ℝ) + 1) * ((Q : ℝ) + 1) := by
      exact_mod_cast hlt
    have hposU : (0:ℝ) < (Q : ℝ) + 1 := by positivity
    have hU : Real.sqrt ((Mi.toNat : ℕ) : ℝ) < (Q : ℝ) + 1 := by
      rw [Real.sqrt_lt' hposU]
      nlinarith [hltR]
    rw [← hsqrtSC]
    push_cast
    push_cast at hmono hU
    linarith

/-- `1` lies in the degenerate interval `(SC, SC)` (scale `2^40`). -/
theorem memI_one_SC : memI (1:ℝ) (SC, SC) := by
  constructor <;> simp [memI]

/-- Soundness of one verified block: when `chunkC` succeeds, the interval
output encloses the particle after `2^j` exact `pstep`s. -/
theorem chunkC_sound (om : ℤ) (j : ℕ) (s s2 : CII) (p : Particle)
    (hrun : chunkC om j s = some s2)
    (hmem : memC (p.x, p.y) s)
    (hom : p.ang_vel = (om : ℝ))
    (hpos : 0 < normSqP p) :
    memC ((pstep^[2 ^ j] p).x, (pstep^[2 ^ j] p).y) s2 := by
  simp only [chunkC] at hrun
  set S : ℤ × ℤ := addI (sqI s.1) (sqI s.2) with hSdef
  set GW : ℤ := cdivZ (2 ^ j * om * om * SC * SC) (10 ^ 10) with hGWdef
  set RloN : ℕ := sqrtN (S.1.toNat * SC.toNat) with hRloNdef
  set RhiN : ℕ := sqrtN ((S.2 * SC + GW).toNat) with hRhiNdef
  split_ifs at hrun with hg
  · obtain ⟨g1, g2, -, -⟩ := hg
    rw [Option.some_inj] at hrun
    subst hrun
    have hmx : memI p.x s.1 := hmem.1
    have hmy : memI p.y s.2 := hmem.2
    have hs0mem : memI (normSqP p) S := by
      rw [hSdef]
      exact memI_add (memI_sq hmx) (memI_sq hmy)
    have g2' : S.2 * SC + cdivZ (2 ^ j * om * om * SC * SC) (10 ^ 10) < 4 ^ 64 := by
      rw [← hGWdef]; exact g2
    have hstep : ∀ i, i < 2 ^ j → 0 < normSqP (pstep^[i] p)
        ∧ memC (1, stepBeta (pstep^[i] p))
            ((SC, SC), betaI om ((RloN : ℤ), (RhiN : ℤ) + 1)) := by
      intro i hi
      obtain ⟨heq, hposi⟩ := normSqP_iterate p hpos i
      refine ⟨hposi, memI_one_SC, ?_⟩
      have hang := pstep_iterate_ang_vel p i
      have hbq : stepBeta (pstep^[i] p)
          = (om : ℝ) / (100000 * Real.sqrt (normSqP (pstep^[i] p))) := by
        rw [stepBeta, hang, hom]
      rw [hbq]
      have hrmem : memI (Real.sqrt (normSqP (pstep^[i] p)))
          ((RloN : ℤ), (RhiN : ℤ) + 1) := by
        have hb := chunk_norm_bounds om j hs0mem hpos.le g2' i hi.le
        rw [← hGWdef] at hb
        rw [← hRloNdef, ← hRhiNdef] at hb
        rw [heq, hom]
        exact hb
      have hrpos : 0 < Real.sqrt (normSqP (pstep^[i] p)) := Real.sqrt_pos.mpr hposi
      exact memI_beta om hrmem g1 hrpos
    obtain ⟨Q, hQ, hE⟩ :=
      pow_encl ((SC, SC), betaI om ((RloN : ℤ), (RhiN : ℤ) + 1)) j p hstep
    have hfinal := memC_cmul hQ hmem
    rw [← hE] at hfinal
    exact hfinal

/-- Soundness of a run of verified blocks: a successful `runCh` encloses the
particle after `∑ 2^j` exact `pstep`s. -/
theorem runCh_sound (om : ℤ) : ∀ (js : List ℕ) (s F : CII) (p : Particle),
    runCh om js s = some F → memC (p.x, p.y) s → p.ang_vel = (om : ℝ) →
    0 < normSqP p →
    memC ((pstep^[(js.map (fun j => 2 ^ j)).sum] p).x,
          (pstep^[(js.map (fun j => 2 ^ j)).sum] p).y) F := by
  intro js
  induction js with
  | nil =>
    intro s F p hrun hmem hom hpos
    simp only [runCh, Option.some_inj] at hrun
    subst hrun
    simpa using hmem
  | cons j js ih =>
    intro s F p hrun hmem hom hpos
    cases hc : chunkC om j s with
    | none =>
      rw [runCh, hc] at hrun
      exact Option.noConfusion hrun
    | some s2 =>
      rw [runCh, hc] at hrun
      have h1 := chunkC_sound om j s s2 p hc hmem hom hpos
      have hpos2 : 0 < normSqP (pstep^[2 ^ j] p) := (normSqP_iterate p hpos (2 ^ j)).2
      have hom2 : (pstep^[2 ^ j] p).ang_vel = (om : ℝ) := by
        rw [pstep_iterate_ang_vel]; exact hom
      have h2 := ih s2 F (pstep^[2 ^ j] p) hrun h1 hom2 hpos2
      have hsum : ((j :: js).map (fun j => 2 ^ j)).sum
          = (js.map (fun j => 2 ^ j)).sum + 2 ^ j := by
        simp [Nat.add_comm]
      rw [hsum, Function.iterate_add_apply]
      exact h2

/-- Soundness of the boolean certificate: a passing `checkRun` puts the
particle's exact position after `∑ 2^j` steps inside the target bands. -/
theorem checkRun_sound (om : ℤ) (js : List ℕ) (s : CII) (tx ty : ℤ × ℤ)
    (p : Particle)
    (hck : checkRun om js s tx ty = true)
    (hmem : memC (p.x, p.y) s) (hom : p.ang_vel = (om : ℝ))
    (hpos : 0 < normSqP p) :
    memI ((pstep^[(js.map (fun j => 2 ^ j)).sum] p).x) tx
      ∧ memI ((pstep^[(js.map (fun j => 2 ^ j)).sum] p).y) ty := by
  rw [checkRun] at hck
  cases hF : runCh om js s with
  | none =>
    rw [hF] at hck
    exact Bool.noConfusion hck
  | some F =>
    rw [hF] at hck
    have hband : tx.1 ≤ F.1.1 ∧ F.1.2 ≤ tx.2 ∧ ty.1 ≤ F.2.1 ∧ F.2.2 ≤ ty.2 :=
      of_decide_eq_true hck
    obtain ⟨hb1, hb2, hb3, hb4⟩ := hband
    have hrun := runCh_sound om js s F p hF hmem hom hpos
    constructor
    · exact ⟨le_trans (by exact_mod_cast hb1) hrun.1.1,
        le_trans hrun.1.2 (by exact_mod_cast hb2)⟩
    · exact ⟨le_trans (by exact_mod_cast hb3) hrun.2.1,
        le_trans hrun.2.2 (by exact_mod_cast hb4)⟩

/-- An integer band at scale `2^40` strictly inside `(t - ε, t + ε)` turns
interval membership into an absolute-error bound. -/
theorem band_to_abs {x t e : ℝ} {lo hi : ℤ} (h : memI x (lo, hi))
    (h1 : (t - e) * ((SC:ℤ):ℝ) < ((lo:ℤ):ℝ))
    (h2 : ((hi:ℤ):ℝ) < (t + e) * ((SC:ℤ):ℝ)) :
    |x - t| < e := by
  obtain ⟨ha, hb⟩ := h
  have hSC := SC_posR
  rw [abs_lt]
  constructor
  · have hx : (t - e) * ((SC:ℤ):ℝ) < x * ((SC:ℤ):ℝ) := lt_of_lt_of_le h1 ha
    have := (mul_lt_mul_right hSC).mp hx
    linarith
  · have hx : x * ((SC:ℤ):ℝ) < (t + e) * ((SC:ℤ):ℝ) := lt_of_le_of_lt hb h2
    have := (mul_lt_mul_right hSC).mp hx
    linarith

set_option maxRecDepth 8000 in
/-- C5: evolving the reference particle set of `test_evolve` — `(0.3, 0.5)`
with angular velocity `+1`, `(0.0, -0.5)` with `-1`, `(-0.1, -0.4)` with
`+3` — for duration `0.1` with `evolve_python` leaves the three particles
within `1e-5` absolute tolerance, per coordinate, of the positions
`(0.210269, 0.543863)`, `(-0.099334, -0.490034)`, `(0.191358, -0.365227)`. -/
theorem reference_particle_scenario :
    |((positionsOf (evolve_python
          [⟨3/10, 1/2, 1⟩, ⟨0, -(1/2), -1⟩, ⟨-(1/10), -(2/5), 3⟩]
          (1/10))).getD 0 (0, 0)).1 - 210269/1000000| < 1/100000
    ∧ |((positionsOf (evolve_python
          [⟨3/10, 1/2, 1⟩, ⟨0, -(1/2), -1⟩, ⟨-(1/10), -(2/5), 3⟩]
          (1/10))).getD 0 (0, 0)).2 - 543863/1000000| < 1/100000
    ∧ |((positionsOf (evolve_python
          [⟨3/10, 1/2, 1⟩, ⟨0, -(1/2), -1⟩, ⟨-(1/10), -(2/5), 3⟩]
          (1/10))).getD 1 (0, 0)).1 + 99334/1000000| < 1/100000
    ∧ |((positionsOf (evolve_python
          [⟨3/10, 1/2, 1⟩, ⟨0, -(1/2), -1⟩, ⟨-(1/10), -(2/5), 3⟩]
          (1/10))).getD 1 (0, 0)).2 + 490034/1000000| < 1/100000
    ∧ |((positionsOf (evolve_python
          [⟨3/10, 1/2, 1⟩, ⟨0, -(1/2), -1⟩, ⟨-(1/10), -(2/5), 3⟩]
          (1/10))).getD 2 (0, 0)).1 - 191358/1000000| < 1/100000
    ∧ |((positionsOf (evolve_python
          [⟨3/10, 1/2, 1⟩, ⟨0, -(1/2), -1⟩, ⟨-(1/10), -(2/5), 3⟩]
          (1/10))).getD 2 (0, 0)).2 + 365227/1000000| < 1/100000 := by
  have hn : nstepsOf (1/10) = 10000 := by
    have h : (1/10 : ℚ) / timestep = 10000 := by norm_num [timestep]
    rw [nstepsOf, h]
    rfl
  have hsum : (([9,9,9,9,9,9,9,9,9,9,9,9,9,9,9,9,9,9,9,8,4] : List ℕ).map
      (fun j => 2 ^ j)).sum = 10000 := by decide
  have hev : evolve_python
        [(⟨3/10, 1/2, 1⟩ : Particle), ⟨0, -(1/2), -1⟩, ⟨-(1/10), -(2/5), 3⟩]
        (1/10)
      = [pstep^[10000] ⟨3/10, 1/2, 1⟩, pstep^[10000] ⟨0, -(1/2), -1⟩,
         pstep^[10000] ⟨-(1/10), -(2/5), 3⟩] := by
    rw [evolve_python, hn, iterate_map_eq_map_iterate]
    rfl
  have hck0 : checkRun 1 [9,9,9,9,9,9,9,9,9,9,9,9,9,9,9,9,9,9,9,8,4]
      ((329853488332, 329853488333), (549755813888, 549755813888))
      (231182215345, 231204205577) (597972697301, 597994687533) = true := by
    decide
  have hmem0 : memC (((⟨3/10, 1/2, 1⟩ : Particle)).x, ((⟨3/10, 1/2, 1⟩ : Particle)).y)
      (((329853488332, 329853488333), (549755813888, 549755813888)) : CII) := by
    simp only [memC, memI, SC]
    norm_num
  have hom0 : ((⟨3/10, 1/2, 1⟩ : Particle)).ang_vel = ((1 : ℤ) : ℝ) := by norm_num
  have hpos0 : 0 < normSqP (⟨3/10, 1/2, 1⟩ : Particle) := by
    simp only [normSqP]
    norm_num
  have h0 := checkRun_sound 1 [9,9,9,9,9,9,9,9,9,9,9,9,9,9,9,9,9,9,9,8,4]
      (((329853488332, 329853488333), (549755813888, 549755813888)) : CII)
      (231182215345, 231204205577) (597972697301, 597994687533)
      (⟨3/10, 1/2, 1⟩ : Particle) hck0 hmem0 hom0 hpos0
  rw [hsum] at h0
  have hck1 : checkRun (-1) [9,9,9,9,9,9,9,9,9,9,9,9,9,9,9,9,9,9,9,8,4]
      ((0, 0), (-549755813888, -549755813888))
      (-109229883149, -109207892918) (-538809076121, -538787085890) = true := by
    decide
  have hmem1 : memC (((⟨0, -(1/2), -1⟩ : Particle)).x, ((⟨0, -(1/2), -1⟩ : Particle)).y)
      (((0, 0), (-549755813888, -549755813888)) : CII) := by
    simp only [memC, memI, SC]
    norm_num
  have hom1 : ((⟨0, -(1/2), -1⟩ : Particle)).ang_vel = ((-1 : ℤ) : ℝ) := by norm_num
  have hpos1 : 0 < normSqP (⟨0, -(1/2), -1⟩ : Particle) := by
    simp only [normSqP]
    norm_num
  have h1 := checkRun_sound (-1) [9,9,9,9,9,9,9,9,9,9,9,9,9,9,9,9,9,9,9,8,4]
      (((0, 0), (-549755813888, -549755813888)) : CII)
      (-109229883149, -109207892918) (-538809076121, -538787085890)
      (⟨0, -(1/2), -1⟩ : Particle) hck1 hmem1 hom1 hpos1
  rw [hsum] at h1
  have hck2 : checkRun 3 [9,9,9,9,9,9,9,9,9,9,9,9,9,9,9,9,9,9,9,8,4]
      ((-109951162778, -109951162777), (-439804651111, -439804651110))
      (210389350952, 210411341184) (-401582328394, -401560338162) = true := by
    decide
  have hmem2 : memC (((⟨-(1/10), -(2/5), 3⟩ : Particle)).x, ((⟨-(1/10), -(2/5), 3⟩ : Particle)).y)
      (((-109951162778, -109951162777), (-439804651111, -439804651110)) : CII) := by
    simp only [memC, memI, SC]
    norm_num
  have hom2 : ((⟨-(1/10), -(2/5), 3⟩ : Particle)).ang_vel = ((3 : ℤ) : ℝ) := by norm_num
  have hpos2 : 0 < normSqP (⟨-(1/10), -(2/5), 3⟩ : Particle) := by
    simp only [normSqP]
    norm_num
  have h2 := checkRun_sound 3 [9,9,9,9,9,9,9,9,9,9,9,9,9,9,9,9,9,9,9,8,4]
      (((-109951162778, -109951162777), (-439804651111, -439804651110)) : CII)
      (210389350952, 210411341184) (-401582328394, -401560338162)
      (⟨-(1/10), -(2/5), 3⟩ : Particle) hck2 hmem2 hom2 hpos2
  rw [hsum] at h2
  rw [hev]
  simp only [positionsOf, List.map_cons, List.map_nil, List.getD_cons_zero,
    List.getD_cons_succ]
  refine ⟨?_, ?_, ?_, ?_, ?_, ?_⟩
  · exact band_to_abs h0.1 (by norm_num [SC]) (by norm_num [SC])
  · exact band_to_abs h0.2 (by norm_num [SC]) (by norm_num [SC])
  · have hb := @band_to_abs ((pstep^[10000] (⟨0, -(1/2), -1⟩ : Particle)).x)
        (-((99334:ℝ)/1000000)) (1/100000) (-109229883149) (-109207892918)
        h1.1 (by norm_num [SC]) (by norm_num [SC])
    rw [sub_neg_eq_add] at hb
    exact hb
  · have hb := @band_to_abs ((pstep^[10000] (⟨0, -(1/2), -1⟩ : Particle)).y)
        (-((490034:ℝ)/1000000)) (1/100000) (-538809076121) (-538787085890)
        h1.2 (by norm_num [SC]) (by norm_num [SC])
    rw [sub_neg_eq_add] at hb
    exact hb
  · exact band_to_abs h2.1 (by norm_num [SC]) (by norm_num [SC])
  · have hb := @band_to_abs ((pstep^[10000] (⟨-(1/10), -(2/5), 3⟩ : Particle)).y)
        (-((365227:ℝ)/1000000)) (1/100000) (-401582328394) (-401560338162)
        h2.2 (by norm_num [SC]) (by norm_num [SC])
    rw [sub_neg_eq_add] at hb
    exact hb
